import Mathlib

/-!
Shallow embedding of `src/scheduler.py`: a multi-queue round-robin task
dispatcher.  `QueueRR` is the fixed-capacity circular-buffer queue, and
`SchedState` together with the `Scheduler.*` functions embeds the mutable
`Scheduler` class as explicit state passing.  Python `int`s are modelled as
`Int` (`Nat` for indices/sizes, which are provably non-negative in the
source).  Python dicts keyed by strings are modelled as functions
`String → Option _` (resp. `String → Bool` for the skip-flag dict, whose only
reads are `.get(qid, False)`); dict insertion order is never observed by the
code, which iterates via the separate `_order` list.  Event-log lines are
modelled as a structure `Event` holding exactly the fields assembled by
`_log_time_event`, plus a `render` function reproducing the textual form.
The run-to-quiescence `while True` loop is embedded with explicit fuel,
returning `none` when the fuel is exhausted before the loop breaks.
-/

namespace Sched

/-- `Task` dataclass: `task_id: str`, `remaining: int`. -/
structure Task where
  task_id : String
  remaining : Int
  deriving Repr, DecidableEq

/-- State of a `QueueRR` object: fixed-capacity circular buffer.
`buf` is `self._buf` (a Python list of `Task | None`), `head` is
`self._head`, `size` is `self._size`, `next_task_num` the task-id counter. -/
structure QueueRR where
  queue_id : String
  capacity : Nat
  buf : List (Option Task)
  head : Nat
  size : Nat
  next_task_num : Nat
  deriving Repr, DecidableEq

namespace QueueRR

/-- `QueueRR.__init__`: `capacity = max(0, int(capacity))`,
`_buf = [None] * (capacity if capacity > 0 else 1)`, head 0, size 0,
counter 1. -/
def mkQueue (queue_id : String) (capacity : Int) : QueueRR :=
  let cap : Nat := (max 0 capacity).toNat
  { queue_id := queue_id
    capacity := cap
    buf := List.replicate (if cap > 0 then cap else 1) none
    head := 0
    size := 0
    next_task_num := 1 }

/-- `QueueRR.enqueue`: reject when `self._size >= self.capacity`, else write
at `(head + size) % len(buf)` and grow `size`. -/
def enqueue (q : QueueRR) (task : Task) : Bool × QueueRR :=
  if q.size ≥ q.capacity then (false, q)
  else
    let pos := (q.head + q.size) % q.buf.length
    (true, { q with buf := q.buf.set pos (some task), size := q.size + 1 })

/-- `QueueRR.dequeue`: `None` when empty, else take `buf[head]`, clear the
slot, advance `head` cyclically, shrink `size`. -/
def dequeue (q : QueueRR) : Option Task × QueueRR :=
  if q.size = 0 then (none, q)
  else
    let t := q.buf.getD q.head none
    (t, { q with buf := q.buf.set q.head none,
                 head := (q.head + 1) % q.buf.length,
                 size := q.size - 1 })

/-- `QueueRR.peek`. -/
def peek (q : QueueRR) : Option Task :=
  if q.size = 0 then none else q.buf.getD q.head none

/-- `QueueRR.contents_front_to_back`: scan `size` slots from `head`
cyclically, keeping the non-`None` entries. -/
def contents_front_to_back (q : QueueRR) : List Task :=
  (List.range q.size).filterMap (fun i => q.buf.getD ((q.head + i) % q.buf.length) none)

/-- Fuelled digit extraction (the fuel `n` itself always suffices, see
`decCharsAux_eq_digits`); structural recursion keeps it kernel-computable. -/
def decCharsAux : Nat → Nat → List Char
  | 0, _ => []
  | fuel + 1, n =>
    if n = 0 then [] else decCharsAux fuel (n / 10) ++ [Nat.digitChar (n % 10)]

/-- Decimal digit characters of `n`, most significant first; models the
digit string Python's `format` produces (`"0"` for 0). -/
def decChars (n : Nat) : List Char :=
  if n = 0 then ['0'] else decCharsAux n n

/-- Python `f"{n:03d}"` for `n ≥ 0`: the decimal digits of `n`, left-padded
with `'0'` to a minimum width of 3. -/
def pad3 (n : Nat) : String :=
  String.mk (List.replicate (3 - (decChars n).length) '0' ++ decChars n)

/-- `QueueRR.next_task_id`: return `f"{queue_id}-{next_task_num:03d}"` and
bump the counter. -/
def next_task_id (q : QueueRR) : String × QueueRR :=
  (q.queue_id ++ "-" ++ pad3 q.next_task_num, { q with next_task_num := q.next_task_num + 1 })

end QueueRR

/-- One structured event-log record, holding exactly the fields that
`Scheduler._log_time_event` assembles into a line. -/
structure Event where
  time : Int
  event : String
  queue : Option String
  task : Option String
  remaining : Option Int
  reason : Option String
  deriving Repr, DecidableEq

/-- The textual rendering `_log_time_event` returns: present fields joined by
spaces in the fixed order time, event, queue, task, remaining, reason. -/
def Event.render (e : Event) : String :=
  String.intercalate " "
    (["time=" ++ toString e.time, "event=" ++ e.event]
      ++ (match e.queue with | some q => ["queue=" ++ q] | none => [])
      ++ (match e.task with | some t => ["task=" ++ t] | none => [])
      ++ (match e.remaining with | some r => ["remaining=" ++ toString r] | none => [])
      ++ (match e.reason with | some r => ["reason=" ++ r] | none => []))

/-- State of a `Scheduler` object.  `queues` embeds the dict
`self._queues` (lookup view), `order` is `self._order`, `skip_pending`
embeds the dict `self._skip_pending` through its only read pattern
`.get(qid, False)`, `next_index` is `self._next_index`, `time` is
`self._time`. -/
structure SchedState where
  queues : String → Option QueueRR
  order : List String
  skip_pending : String → Bool
  next_index : Nat
  time : Int

namespace Scheduler

/-- The hardcoded menu dict of `Scheduler.__init__`. -/
def menu (item : String) : Option Int :=
  if item = "americano" then some 2
  else if item = "latte" then some 3
  else if item = "cappuccino" then some 3
  else if item = "mocha" then some 4
  else if item = "tea" then some 1
  else if item = "macchiato" then some 2
  else if item = "hot_chocolate" then some 4
  else none

/-- `Scheduler.__init__`: empty dicts, empty order, cursor 0, time 0. -/
def initState : SchedState :=
  { queues := fun _ => none
    order := []
    skip_pending := fun _ => false
    next_index := 0
    time := 0 }

/-- `Scheduler._log_time_event` (the structured record underlying the
returned string). -/
def log_time_event (s : SchedState) (event : String) (queue task : Option String)
    (remaining : Option Int) (reason : Option String) : Event :=
  { time := s.time, event := event, queue := queue, task := task,
    remaining := remaining, reason := reason }

/-- Write `self._queues[queue_id] = q`. -/
def setQueue (s : SchedState) (queue_id : String) (q : QueueRR) : SchedState :=
  { s with queues := fun k => if k = queue_id then some q else s.queues k }

/-- Write `self._skip_pending[queue_id] = b`. -/
def setSkip (s : SchedState) (queue_id : String) (b : Bool) : SchedState :=
  { s with skip_pending := fun k => if k = queue_id then b else s.skip_pending k }

/-- `Scheduler.create_queue`: replace any existing queue object, append the
id to `_order` (the source appends unconditionally, also when the id already
existed), set the skip flag to `False`, emit a `create` event. -/
def create_queue (s : SchedState) (queue_id : String) (capacity : Int) :
    SchedState × List Event :=
  let q := QueueRR.mkQueue queue_id capacity
  let s1 := setQueue s queue_id q
  let s2 := { s1 with order := s1.order ++ [queue_id] }
  let s3 := setSkip s2 queue_id false
  (s3, [log_time_event s3 "create" (some queue_id) none none none])

/-- `Scheduler.enqueue` (submission): unknown queue emits `error`; otherwise
a task id is drawn from the queue's counter (mutating the stored queue), then
unknown items and full queues emit `reject`, and a successful submission
enqueues `Task(task_id, menu[item])` and emits `enqueue`.  The final
defensive `if not ok` branch of the source is kept. -/
def enqueue (s : SchedState) (queue_id : String) (item_name : String) :
    SchedState × List Event :=
  match s.queues queue_id with
  | none => (s, [log_time_event s "error" (some queue_id) none none (some "unknown_queue")])
  | some q =>
    let p := q.next_task_id
    let task_id := p.1
    let s1 := setQueue s queue_id p.2
    match menu item_name with
    | none =>
        (s1, [log_time_event s1 "reject" (some queue_id) (some task_id) none (some "unknown_item")])
    | some burst =>
        if p.2.size ≥ p.2.capacity then
          (s1, [log_time_event s1 "reject" (some queue_id) (some task_id) none (some "full")])
        else
          let r := p.2.enqueue { task_id := task_id, remaining := burst }
          let s2 := setQueue s1 queue_id r.2
          if r.1 then
            (s2, [log_time_event s2 "enqueue" (some queue_id) (some task_id) (some burst) none])
          else
            (s2, [log_time_event s2 "reject" (some queue_id) (some task_id) none (some "full")])

/-- `Scheduler.mark_skip`. -/
def mark_skip (s : SchedState) (queue_id : String) : SchedState × List Event :=
  match s.queues queue_id with
  | none => (s, [log_time_event s "error" (some queue_id) none none (some "unknown_queue")])
  | some _ =>
    let s1 := setSkip s queue_id true
    (s1, [log_time_event s1 "skip" (some queue_id) none none none])

/-- `Scheduler._perform_single_turn`: emit `run`; consume a pending skip with
no time advance; otherwise dequeue, work `min(remaining, quantum)`, advance
the clock, and either finish (discard) or re-enqueue with the decremented
remaining.  The two defensive source branches (missing queue, `None` from a
non-empty dequeue) are kept. -/
def perform_single_turn (s : SchedState) (queue_id : String) (quantum : Int) :
    SchedState × List Event :=
  let e_run := log_time_event s "run" (some queue_id) none none none
  if s.skip_pending queue_id then
    let s1 := setSkip s queue_id false
    (s1, [e_run, log_time_event s1 "skip" (some queue_id) none none none])
  else
    match s.queues queue_id with
    | none => (s, [e_run])
    | some q =>
      if q.size = 0 then (s, [e_run])
      else
        let d := q.dequeue
        let s1 := setQueue s queue_id d.2
        match d.1 with
        | none => (s1, [e_run])
        | some task =>
          let work_time := min task.remaining quantum
          let s2 := { s1 with time := s1.time + work_time }
          let task' := { task with remaining := task.remaining - work_time }
          if task'.remaining ≤ 0 then
            (s2, [e_run,
                  log_time_event s2 "work" (some queue_id) (some task.task_id) (some 0) none,
                  log_time_event s2 "finish" (some queue_id) (some task.task_id) none none])
          else
            let r := d.2.enqueue task'
            let s3 := setQueue s2 queue_id r.2
            (s3, [e_run,
                  log_time_event s3 "work" (some queue_id) (some task.task_id)
                    (some task'.remaining) none])

/-- The nested helper `advance_index` of `Scheduler.run`. -/
def advance_index (s : SchedState) : SchedState :=
  if s.order = [] then s
  else { s with next_index := (s.next_index + 1) % s.order.length }

/-- Size of the queue stored under `qid` (`len(self._queues[qid])`; the id is
always present for ids taken from `_order`, see `Inv`). -/
def sizeAt (s : SchedState) (qid : String) : Nat :=
  match s.queues qid with
  | none => 0
  | some q => q.size

/-- The `while True` break condition of run-to-quiescence mode:
`all_empty and not any_skip`. -/
def quiescent (s : SchedState) : Bool :=
  s.order.all (fun qid => sizeAt s qid = 0) && !(s.order.any (fun qid => s.skip_pending qid))

/-- The fixed-`steps` loop of `Scheduler.run`: each iteration performs one
turn against `order[next_index]` and advances the cursor; with no queues it
appends a bare `run` event. -/
def runSteps (s : SchedState) (quantum : Int) : Nat → SchedState × List Event
  | 0 => (s, [])
  | n + 1 =>
    if s.order = [] then
      let e := log_time_event s "run" none none none none
      let r := runSteps s quantum n
      (r.1, e :: r.2)
    else
      let current_qid := s.order.getD s.next_index ""
      let t := perform_single_turn s current_qid quantum
      let r := runSteps (advance_index t.1) quantum n
      (r.1, t.2 ++ r.2)

/-- The run-to-quiescence `while True` loop of `Scheduler.run`, with explicit
fuel; `none` means the fuel ran out before the break condition held (the
source would still be looping). -/
def runQuiet (quantum : Int) : Nat → SchedState → Option (SchedState × List Event)
  | 0, _ => none
  | fuel + 1, s =>
    if quiescent s then some (s, [])
    else
      let current_qid := s.order.getD s.next_index ""
      let t := perform_single_turn s current_qid quantum
      match runQuiet quantum fuel (advance_index t.1) with
      | none => none
      | some r => some (r.1, t.2 ++ r.2)

/-- `Scheduler.run`: validate `steps` when provided (`1 ≤ steps ≤
max(1, len(order))`, else a single `invalid_steps` error and no turns); with
`steps` run exactly that many turns; without `steps` return immediately when
`order` is empty, else loop to quiescence (fuelled). -/
def run (s : SchedState) (quantum : Int) (steps : Option Int) (fuel : Nat) :
    Option (SchedState × List Event) :=
  match steps with
  | some k =>
    if k < 1 ∨ k > max 1 (s.order.length : Int) then
      some (s, [log_time_event s "error" none none none (some "invalid_steps")])
    else
      some (runSteps s quantum k.toNat)
  | none =>
    if s.order = [] then some (s, [])
    else runQuiet quantum fuel s

end Scheduler

/-- One engine operation (the public API calls a client can make); a
run-to-quiescence call carries its fuel. -/
inductive Op where
  | createQ (id : String) (cap : Int)
  | submitQ (id : String) (item : String)
  | skipQ (id : String)
  | runQ (quantum : Int) (steps : Option Int) (fuel : Nat)

/-- Apply one operation; `none` only when a fuelled run-to-quiescence call
did not reach quiescence within its fuel. -/
def applyOp (s : SchedState) : Op → Option (SchedState × List Event)
  | Op.createQ id cap => some (Scheduler.create_queue s id cap)
  | Op.submitQ id item => some (Scheduler.enqueue s id item)
  | Op.skipQ id => some (Scheduler.mark_skip s id)
  | Op.runQ quantum steps fuel => Scheduler.run s quantum steps fuel

/-- Engine states reachable from a fresh `Scheduler()` by completed
operations. -/
inductive Reachable : SchedState → Prop
  | init : Reachable Scheduler.initState
  | step {s s' : SchedState} {op : Op} {evs : List Event} :
      Reachable s → applyOp s op = some (s', evs) → Reachable s'

/-- Run a whole list of operations; `none` when some fuelled
run-to-quiescence call in the list did not terminate within its fuel. -/
def execOps (s : SchedState) : List Op → Option SchedState
  | [] => some s
  | op :: ops =>
    match applyOp s op with
    | none => none
    | some r => execOps r.1 ops

/-- The spec's contract on `run`: the quantum is a positive integer
(`create`/`submit`/`skip` carry no quantum). -/
def goodQuantum : Op → Prop
  | Op.runQ quantum _ _ => 1 ≤ quantum
  | _ => True

namespace QueueRR

/-- Decimal value of a digit string (used only to invert `pad3`). -/
def charsVal (cs : List Char) : Nat :=
  cs.foldl (fun a c => 10 * a + (c.toNat - '0'.toNat)) 0

/-- Iterate `next_task_id`, collecting the generated ids in call order. -/
def genIds (q : QueueRR) : Nat → List String × QueueRR
  | 0 => ([], q)
  | n + 1 =>
    let p := q.next_task_id
    let r := genIds p.2 n
    (p.1 :: r.1, r.2)

/-- Well-formedness of a `QueueRR` value, maintained by every state the
scheduler ever stores: the buffer has the size `__init__` allocates, the
logical size fits the capacity, the head index is in range, and the `size`
slots starting at `head` hold tasks with positive `remaining`. -/
structure WF (q : QueueRR) : Prop where
  hlen : q.buf.length = if q.capacity > 0 then q.capacity else 1
  hsize : q.size ≤ q.capacity
  hhead : q.head < q.buf.length
  hslots : ∀ i, i < q.size →
    ∃ t : Task, q.buf.getD ((q.head + i) % q.buf.length) none = some t ∧ 1 ≤ t.remaining

/-- Termination measure of one queue: each queued task contributes its
(non-negative) remaining time plus one. -/
def queueMeasure (q : QueueRR) : Nat :=
  (q.contents_front_to_back.map (fun t => t.remaining.toNat + 1)).sum

end QueueRR

/-- Invariant of every reachable engine state: all stored queues are
well-formed circular buffers, every id listed in `_order` is present in
`_queues`, and the round-robin cursor is in range (0 when there are no
queues). -/
structure Inv (s : SchedState) : Prop where
  hwf : ∀ qid q, s.queues qid = some q → q.WF
  hmem : ∀ qid, qid ∈ s.order → (s.queues qid).isSome
  hidx : s.next_index < max 1 s.order.length

/-- Exact clock advance of one turn against `queue_id`: zero for
skip-consuming, missing-queue and empty turns, `min(front.remaining,
quantum)` for a work turn. -/
def turnWorked (s : SchedState) (queue_id : String) (quantum : Int) : Int :=
  if s.skip_pending queue_id then 0
  else
    match s.queues queue_id with
    | none => 0
    | some q =>
      if q.size = 0 then 0
      else
        match (q.dequeue).1 with
        | none => 0
        | some t => min t.remaining quantum

/-- Termination measure of one round-robin site: its queue's measure plus
one for a pending skip flag. -/
def siteMeasure (s : SchedState) (qid : String) : Nat :=
  (match s.queues qid with
   | none => 0
   | some q => q.queueMeasure)
  + (if s.skip_pending qid then 1 else 0)

/-- Termination measure of the engine: sum of the site measures over the
distinct queue ids of `_order`. -/
def engineMeasure (s : SchedState) : Nat :=
  (s.order.dedup.map (siteMeasure s)).sum

/-- Sample state: a fresh engine with one queue `a` of capacity 2. -/
def sampleA : SchedState := (Scheduler.create_queue Scheduler.initState "a" 2).1

/-- Sample state: `sampleA` after submitting one `americano` (remaining 2). -/
def sampleLoaded : SchedState := (Scheduler.enqueue sampleA "a" "americano").1

/-- Sample state: `sampleLoaded` after `mark_skip` on `a` (task and skip
flag both pending). -/
def sampleSkip : SchedState := (Scheduler.mark_skip sampleLoaded "a").1

/-- Sample state: `sampleA` plus a second queue `b` of capacity 1. -/
def sampleTwo : SchedState := (Scheduler.create_queue sampleA "b" 1).1

/-- The queue object stored under `a` in `sampleLoaded`: one task `a-001`
with remaining 2 in a capacity-2 ring buffer, counter at 2. -/
def sampleQueueA : QueueRR :=
  { queue_id := "a", capacity := 2, buf := [some ⟨"a-001", 2⟩, none],
    head := 0, size := 1, next_task_num := 2 }

/-! ### Decimal formatting: `pad3` is injective -/

namespace QueueRR

theorem charsVal_append_digit (a : Nat) (cs : List Char) (c : Char) :
    (cs ++ [c]).foldl (fun a c => 10 * a + (c.toNat - '0'.toNat)) a
      = 10 * (cs.foldl (fun a c => 10 * a + (c.toNat - '0'.toNat)) a) + (c.toNat - '0'.toNat) := by
  rw [List.foldl_append]
  rfl

theorem digitChar_val {d : Nat} (hd : d < 10) :
    (Nat.digitChar d).toNat - '0'.toNat = d := by
  interval_cases d <;> rfl

theorem charsVal_rev_digits (ds : List Nat) (h : ∀ d ∈ ds, d < 10) :
    charsVal (ds.reverse.map Nat.digitChar) = Nat.ofDigits 10 ds := by
  induction ds with
  | nil => rfl
  | cons d ds ih =>
    have hd : d < 10 := h d (List.mem_cons_self d ds)
    have hds : ∀ x ∈ ds, x < 10 := fun x hx => h x (List.mem_cons_of_mem d hx)
    simp only [List.reverse_cons, List.map_append, List.map_cons, List.map_nil]
    unfold charsVal
    rw [charsVal_append_digit, digitChar_val hd]
    unfold charsVal at ih
    rw [ih hds, Nat.ofDigits_cons]
    ring

theorem decCharsAux_eq_digits : ∀ fuel n : Nat, n ≤ fuel →
    decCharsAux fuel n = (Nat.digits 10 n).reverse.map Nat.digitChar := by
  intro fuel
  induction fuel with
  | zero =>
    intro n hn
    have h0 : n = 0 := by omega
    subst h0
    simp [decCharsAux]
  | succ fuel ih =>
    intro n hn
    by_cases h0 : n = 0
    · subst h0
      simp [decCharsAux]
    · show (if n = 0 then [] else decCharsAux fuel (n / 10) ++ [Nat.digitChar (n % 10)])
        = (Nat.digits 10 n).reverse.map Nat.digitChar
      rw [if_neg h0]
      have hdiv : n / 10 ≤ fuel := by
        have := Nat.div_lt_self (Nat.pos_of_ne_zero h0) (by norm_num : 1 < 10)
        omega
      rw [ih (n / 10) hdiv, Nat.digits_def' (by norm_num : 1 < 10) (Nat.pos_of_ne_zero h0)]
      simp

theorem decChars_eq (n : Nat) :
    decChars n = if n = 0 then ['0'] else (Nat.digits 10 n).reverse.map Nat.digitChar := by
  unfold decChars
  split
  · rfl
  · exact decCharsAux_eq_digits n n le_rfl

theorem charsVal_decChars (n : Nat) : charsVal (decChars n) = n := by
  by_cases h : n = 0
  · subst h; rfl
  · rw [decChars_eq, if_neg h]
    rw [charsVal_rev_digits _ (fun d hd => Nat.digits_lt_base (by norm_num) hd)]
    exact Nat.ofDigits_digits 10 n

theorem charsVal_pad_zeros (k : Nat) (cs : List Char) :
    charsVal (List.replicate k '0' ++ cs) = charsVal cs := by
  induction k with
  | zero => rfl
  | succ k ih =>
    simp only [List.replicate_succ, List.cons_append]
    unfold charsVal at ih ⊢
    simpa using ih

theorem charsVal_pad3 (n : Nat) : charsVal (pad3 n).data = n := by
  unfold pad3
  show charsVal (List.replicate (3 - (decChars n).length) '0' ++ decChars n) = n
  rw [charsVal_pad_zeros, charsVal_decChars]

theorem pad3_inj {n m : Nat} (h : pad3 n = pad3 m) : n = m := by
  have := congrArg (fun s => charsVal s.data) h
  simpa [charsVal_pad3] using this

theorem string_data_append (s t : String) : (s ++ t).data = s.data ++ t.data := by
  cases s; cases t; rfl

/-- Distinct counter values give distinct task-id strings for the same
queue id. -/
theorem taskId_inj {qid : String} {n m : Nat}
    (h : qid ++ "-" ++ pad3 n = qid ++ "-" ++ pad3 m) : n = m := by
  apply pad3_inj
  have hd := congrArg String.data h
  rw [string_data_append, string_data_append] at hd
  exact String.ext (List.append_cancel_left hd)

end QueueRR

/-! ### Circular-buffer well-formedness -/

namespace QueueRR

theorem WF.len_pos {q : QueueRR} (h : WF q) : 0 < q.buf.length := by
  rw [h.hlen]; split <;> omega

theorem WF.size_le_len {q : QueueRR} (h : WF q) : q.size ≤ q.buf.length := by
  have hs := h.hsize
  rw [h.hlen]; split <;> omega

theorem mod_shift_inj {L h a b : Nat} (ha : a < L) (hb : b < L)
    (heq : (h + a) % L = (h + b) % L) : a = b := by
  have hmod : Nat.ModEq L a b :=
    Nat.ModEq.add_left_cancel (Nat.ModEq.refl h) heq
  unfold Nat.ModEq at hmod
  rwa [Nat.mod_eq_of_lt ha, Nat.mod_eq_of_lt hb] at hmod

theorem wf_mkQueue (queue_id : String) (capacity : Int) : WF (mkQueue queue_id capacity) := by
  constructor
  · simp [mkQueue]
  · exact Nat.zero_le _
  · simp only [mkQueue, List.length_replicate]
    split <;> omega
  · intro i hi
    exact absurd hi (by simp [mkQueue])

theorem wf_next_task_num {q : QueueRR} (h : WF q) (m : Nat) :
    WF { q with next_task_num := m } :=
  ⟨h.hlen, h.hsize, h.hhead, h.hslots⟩

/-- Full behaviour of a successful `enqueue` under well-formedness: it
returns `True`, appends the task at the back, grows `size` by one, and keeps
the queue well formed (when the task has positive `remaining`). -/
theorem enqueue_spec {q : QueueRR} (h : WF q) (t : Task) (hlt : q.size < q.capacity) :
    (q.enqueue t).1 = true ∧
    (q.enqueue t).2.contents_front_to_back = q.contents_front_to_back ++ [t] ∧
    (q.enqueue t).2.size = q.size + 1 ∧
    (q.enqueue t).2.head = q.head ∧
    (q.enqueue t).2.capacity = q.capacity ∧
    (q.enqueue t).2.queue_id = q.queue_id ∧
    (q.enqueue t).2.next_task_num = q.next_task_num ∧
    (1 ≤ t.remaining → WF (q.enqueue t).2) := by
  have hcap_pos : 0 < q.capacity := by omega
  have hlen_eq : q.buf.length = q.capacity := by rw [h.hlen, if_pos hcap_pos]
  have hsz_lt_len : q.size < q.buf.length := by omega
  have hguard : ¬ q.size ≥ q.capacity := by omega
  have hpos_lt : (q.head + q.size) % q.buf.length < q.buf.length :=
    Nat.mod_lt _ (by omega)
  unfold enqueue
  rw [if_neg hguard]
  refine ⟨rfl, ?_, by simp [List.length_set], rfl, rfl, rfl, rfl, ?_⟩
  · -- contents grow at the back
    show (List.range (q.size + 1)).filterMap
        (fun i => (q.buf.set ((q.head + q.size) % q.buf.length) (some t)).getD
          ((q.head + i) % (q.buf.set ((q.head + q.size) % q.buf.length) (some t)).length) none)
      = q.contents_front_to_back ++ [t]
    rw [List.range_succ, List.filterMap_append]
    congr 1
    · apply List.filterMap_congr
      intro i hi
      have hi' : i < q.size := List.mem_range.mp hi
      have hne : (q.head + i) % q.buf.length ≠ (q.head + q.size) % q.buf.length := by
        intro hcontra
        exact absurd (mod_shift_inj (by omega) hsz_lt_len hcontra) (by omega)
      rw [List.length_set, List.getD_eq_getElem?_getD, List.getElem?_set_ne (fun hx => hne hx.symm),
        ← List.getD_eq_getElem?_getD]
    · simp only [List.filterMap_cons, List.filterMap_nil, List.length_set]
      rw [List.getD_eq_getElem?_getD, List.getElem?_set_self hpos_lt]
      rfl
  · -- well-formedness is preserved
    intro hrem
    refine ⟨by simpa [List.length_set] using h.hlen, by show q.size + 1 ≤ q.capacity; omega,
      by simpa [List.length_set] using h.hhead, ?_⟩
    intro i hi
    simp only [List.length_set] at hi ⊢
    by_cases hie : i = q.size
    · subst hie
      refine ⟨t, ?_, hrem⟩
      rw [List.getD_eq_getElem?_getD, List.getElem?_set_self hpos_lt]
      rfl
    · have hi' : i < q.size := by omega
      obtain ⟨t0, ht0, hrem0⟩ := h.hslots i hi'
      refine ⟨t0, ?_, hrem0⟩
      have hne : (q.head + i) % q.buf.length ≠ (q.head + q.size) % q.buf.length := by
        intro hcontra
        exact absurd (mod_shift_inj (by omega) hsz_lt_len hcontra) hie
      rw [List.getD_eq_getElem?_getD, List.getElem?_set_ne (fun hx => hne hx.symm),
        ← List.getD_eq_getElem?_getD]
      exact ht0

/-- Full behaviour of `dequeue` on a non-empty well-formed queue: it returns
the front task (which has positive `remaining`), the remaining contents are
the old tail, `size` shrinks by one, and well-formedness is preserved. -/
theorem dequeue_spec {q : QueueRR} (h : WF q) (hpos : 0 < q.size) :
    ∃ t0 : Task,
      (q.dequeue).1 = some t0 ∧ 1 ≤ t0.remaining ∧
      q.contents_front_to_back = t0 :: (q.dequeue).2.contents_front_to_back ∧
      (q.dequeue).2.size = q.size - 1 ∧
      (q.dequeue).2.capacity = q.capacity ∧
      (q.dequeue).2.queue_id = q.queue_id ∧
      (q.dequeue).2.next_task_num = q.next_task_num ∧
      WF (q.dequeue).2 := by
  obtain ⟨t0, ht0, hrem0⟩ := h.hslots 0 hpos
  have hhead_idx : (q.head + 0) % q.buf.length = q.head := by
    rw [Nat.add_zero, Nat.mod_eq_of_lt h.hhead]
  rw [hhead_idx] at ht0
  have hne_zero : ¬ q.size = 0 := by omega
  have hlenpos : 0 < q.buf.length := h.len_pos
  have hsle : q.size ≤ q.buf.length := h.size_le_len
  have hne_idx : ∀ i, i + 1 < q.buf.length → (q.head + (i + 1)) % q.buf.length ≠ q.head := by
    intro i hilt hcontra
    have h2 : (q.head + (i + 1)) % q.buf.length = (q.head + 0) % q.buf.length :=
      hcontra.trans hhead_idx.symm
    exact absurd (mod_shift_inj hilt hlenpos h2) (by omega)
  have hdq : q.dequeue = (q.buf.getD q.head none,
      { q with buf := q.buf.set q.head none,
               head := (q.head + 1) % q.buf.length,
               size := q.size - 1 }) := by
    unfold dequeue
    rw [if_neg hne_zero]
  rw [hdq]
  refine ⟨t0, ht0, hrem0, ?_, rfl, rfl, rfl, rfl, ?_⟩
  · -- old contents = front task :: new contents
    obtain ⟨m, hm⟩ : ∃ m, q.size = m + 1 := ⟨q.size - 1, by omega⟩
    show (List.range q.size).filterMap
        (fun i => q.buf.getD ((q.head + i) % q.buf.length) none)
      = t0 :: (List.range (q.size - 1)).filterMap
          (fun i => (q.buf.set q.head none).getD
            (((q.head + 1) % q.buf.length + i) % (q.buf.set q.head none).length) none)
    simp only [List.length_set]
    rw [hm, Nat.add_sub_cancel, List.range_succ_eq_map]
    simp only [List.filterMap_cons, hhead_idx, ht0]
    congr 1
    rw [List.filterMap_map]
    apply List.filterMap_congr
    intro i hi
    have hi' : i < m := List.mem_range.mp hi
    show q.buf.getD ((q.head + Nat.succ i) % q.buf.length) none
      = (q.buf.set q.head none).getD (((q.head + 1) % q.buf.length + i) % q.buf.length) none
    rw [Nat.mod_add_mod]
    have hidx : q.head + 1 + i = q.head + (i + 1) := by omega
    rw [hidx]
    have hne : (q.head + (i + 1)) % q.buf.length ≠ q.head := hne_idx i (by omega)
    rw [List.getD_eq_getElem?_getD, List.getD_eq_getElem?_getD,
      List.getElem?_set_ne (fun hx => hne hx.symm)]
  · -- well-formedness is preserved
    refine ⟨?_, ?_, ?_, ?_⟩
    · show (q.buf.set q.head none).length = _
      rw [List.length_set]
      exact h.hlen
    · show q.size - 1 ≤ q.capacity
      have := h.hsize
      omega
    · show (q.head + 1) % q.buf.length < (q.buf.set q.head none).length
      rw [List.length_set]
      exact Nat.mod_lt _ hlenpos
    · intro i hi
      have hi' : i < q.size - 1 := hi
      obtain ⟨t1, ht1, hrem1⟩ := h.hslots (i + 1) (by omega)
      show ∃ t, (q.buf.set q.head none).getD
          (((q.head + 1) % q.buf.length + i) % (q.buf.set q.head none).length) none = some t
          ∧ 1 ≤ t.remaining
      rw [List.length_set, Nat.mod_add_mod]
      have hidx : q.head + 1 + i = q.head + (i + 1) := by omega
      rw [hidx]
      have hne : (q.head + (i + 1)) % q.buf.length ≠ q.head := hne_idx i (by omega)
      refine ⟨t1, ?_, hrem1⟩
      rw [List.getD_eq_getElem?_getD, List.getElem?_set_ne (fun hx => hne hx.symm),
        ← List.getD_eq_getElem?_getD]
      exact ht1

end QueueRR

/-! ### Scheduler-level invariant -/

theorem inv_init : Inv Scheduler.initState := by
  refine ⟨?_, ?_, ?_⟩
  · intro qid q h
    exact absurd h (by simp [Scheduler.initState])
  · intro qid h
    exact absurd h (by simp [Scheduler.initState])
  · simp [Scheduler.initState]

namespace Scheduler

theorem menu_pos {item : String} {b : Int} (h : menu item = some b) : 1 ≤ b := by
  unfold menu at h
  split_ifs at h <;> simp_all <;> omega

/-- Enqueueing a task with positive `remaining` into a well-formed queue
yields a well-formed queue, whether or not the enqueue was accepted. -/
theorem wf_enqueue_any {q : QueueRR} (h : q.WF) {t : Task} (ht : 1 ≤ t.remaining) :
    ((q.enqueue t).2).WF := by
  by_cases hcap : q.size ≥ q.capacity
  · unfold QueueRR.enqueue
    rw [if_pos hcap]
    exact h
  · exact (QueueRR.enqueue_spec h t (by omega)).2.2.2.2.2.2.2 ht

theorem inv_setQueue {s : SchedState} (h : Inv s) {q : QueueRR} (hq : q.WF)
    (queue_id : String) : Inv (setQueue s queue_id q) := by
  refine ⟨?_, ?_, h.hidx⟩
  · intro qid q' hq'
    simp only [setQueue] at hq'
    by_cases he : qid = queue_id
    · rw [if_pos he] at hq'
      cases hq'
      exact hq
    · rw [if_neg he] at hq'
      exact h.hwf qid q' hq'
  · intro qid hqid
    simp only [setQueue]
    by_cases he : qid = queue_id
    · rw [if_pos he]
      rfl
    · rw [if_neg he]
      exact h.hmem qid hqid

theorem inv_setSkip {s : SchedState} (h : Inv s) (queue_id : String) (b : Bool) :
    Inv (setSkip s queue_id b) :=
  ⟨h.hwf, h.hmem, h.hidx⟩

theorem inv_create_queue {s : SchedState} (h : Inv s) (queue_id : String) (capacity : Int) :
    Inv (create_queue s queue_id capacity).1 := by
  have h1 := inv_setQueue h (QueueRR.wf_mkQueue queue_id capacity) queue_id
  refine ⟨h1.hwf, ?_, ?_⟩
  · intro qid hqid
    show ((setQueue s queue_id (QueueRR.mkQueue queue_id capacity)).queues qid).isSome
    have hqid' : qid ∈ s.order ++ [queue_id] := hqid
    rcases List.mem_append.mp hqid' with hmem | hmem
    · exact h1.hmem qid hmem
    · have he : qid = queue_id := List.mem_singleton.mp hmem
      subst he
      simp only [setQueue, if_pos rfl]
      rfl
  · show s.next_index < max 1 (s.order ++ [queue_id]).length
    have := h.hidx
    simp only [List.length_append, List.length_singleton]
    omega

theorem inv_enqueue {s : SchedState} (h : Inv s) (queue_id item_name : String) :
    Inv (enqueue s queue_id item_name).1 := by
  unfold enqueue
  cases hq : s.queues queue_id with
  | none => exact h
  | some q =>
    have hwfq : q.WF := h.hwf queue_id q hq
    have hwf1 : (q.next_task_id).2.WF := QueueRR.wf_next_task_num hwfq _
    have h1 := inv_setQueue h hwf1 queue_id
    cases hm : menu item_name with
    | none => exact h1
    | some burst =>
      simp only
      split
      · exact h1
      · have hrem : (1 : Int) ≤ burst := menu_pos hm
        have hwf2 : (((q.next_task_id).2.enqueue
            { task_id := (q.next_task_id).1, remaining := burst }).2).WF :=
          wf_enqueue_any hwf1 hrem
        have h2 := inv_setQueue h1 hwf2 queue_id
        split <;> exact h2

theorem inv_mark_skip {s : SchedState} (h : Inv s) (queue_id : String) :
    Inv (mark_skip s queue_id).1 := by
  unfold mark_skip
  cases hq : s.queues queue_id with
  | none => exact h
  | some q => exact inv_setSkip h queue_id true

theorem inv_perform_single_turn {s : SchedState} (h : Inv s) (queue_id : String)
    (quantum : Int) : Inv (perform_single_turn s queue_id quantum).1 := by
  unfold perform_single_turn
  split
  · exact inv_setSkip h queue_id false
  · cases hq : s.queues queue_id with
    | none => exact h
    | some q =>
      have hwfq : q.WF := h.hwf queue_id q hq
      dsimp only
      split
      · exact h
      · rename_i hempty
        obtain ⟨t0, ht0, hrem0, hcont, hsz, hcap, hqid, hnum, hwf'⟩ :=
          QueueRR.dequeue_spec hwfq (Nat.pos_of_ne_zero hempty)
        have h1 := inv_setQueue h hwf' queue_id
        rw [ht0]
        dsimp only
        split
        · exact ⟨h1.hwf, h1.hmem, h1.hidx⟩
        · rename_i hpos
          have h2 : Inv { setQueue s queue_id q.dequeue.2 with
              time := (setQueue s queue_id q.dequeue.2).time + t0.remaining ⊓ quantum } :=
            ⟨h1.hwf, h1.hmem, h1.hidx⟩
          have hrem' : (1 : Int) ≤
              (⟨t0.task_id, t0.remaining - t0.remaining ⊓ quantum⟩ : Task).remaining := by
            show (1 : Int) ≤ t0.remaining - t0.remaining ⊓ quantum
            omega
          exact inv_setQueue h2 (wf_enqueue_any hwf' hrem') queue_id

theorem inv_advance_index {s : SchedState} (h : Inv s) : Inv (advance_index s) := by
  unfold advance_index
  split
  · exact h
  · rename_i hne
    have hlen : 0 < s.order.length := List.length_pos.mpr hne
    refine ⟨h.hwf, h.hmem, ?_⟩
    show (s.next_index + 1) % s.order.length < max 1 s.order.length
    have := Nat.mod_lt (s.next_index + 1) hlen
    omega

theorem inv_runSteps {s : SchedState} (h : Inv s) (quantum : Int) (n : Nat) :
    Inv (runSteps s quantum n).1 := by
  induction n generalizing s with
  | zero => exact h
  | succ n ih =>
    unfold runSteps
    split
    · exact ih h
    · exact ih (inv_advance_index (inv_perform_single_turn h _ quantum))

theorem inv_runQuiet {quantum : Int} {fuel : Nat} {s s' : SchedState} {evs : List Event}
    (h : Inv s) (hrun : runQuiet quantum fuel s = some (s', evs)) : Inv s' := by
  induction fuel generalizing s evs with
  | zero => exact absurd hrun (by simp [runQuiet])
  | succ fuel ih =>
    unfold runQuiet at hrun
    split at hrun
    · cases hrun
      exact h
    · have h1 := inv_advance_index (inv_perform_single_turn h
        (s.order.getD s.next_index "") quantum)
      dsimp only at hrun
      cases hr : runQuiet quantum fuel
          (advance_index (perform_single_turn s (s.order.getD s.next_index "") quantum).1) with
      | none =>
        rw [hr] at hrun
        exact absurd hrun (by simp)
      | some r =>
        rw [hr] at hrun
        obtain ⟨r1, r2⟩ := r
        have h2 := Option.some.inj hrun
        have hs' : r1 = s' := congrArg Prod.fst h2
        subst hs'
        exact ih h1 hr

theorem inv_run {s s' : SchedState} {quantum : Int} {steps : Option Int} {fuel : Nat}
    {evs : List Event} (h : Inv s) (hrun : run s quantum steps fuel = some (s', evs)) :
    Inv s' := by
  unfold run at hrun
  cases steps with
  | some k =>
    simp only at hrun
    split at hrun
    · cases hrun
      exact h
    · have h2 := Option.some.inj hrun
      have h3 : s' = (runSteps s quantum k.toNat).1 := by rw [h2]
      rw [h3]
      exact inv_runSteps h quantum k.toNat
  | none =>
    simp only at hrun
    split at hrun
    · cases hrun
      exact h
    · exact inv_runQuiet h hrun

end Scheduler

theorem inv_applyOp {s s' : SchedState} {op : Op} {evs : List Event}
    (h : Inv s) (happ : applyOp s op = some (s', evs)) : Inv s' := by
  cases op with
  | createQ id cap =>
    simp only [applyOp] at happ
    have h2 := Option.some.inj happ
    have h3 : s' = (Scheduler.create_queue s id cap).1 := by rw [h2]
    rw [h3]
    exact Scheduler.inv_create_queue h id cap
  | submitQ id item =>
    simp only [applyOp] at happ
    have h2 := Option.some.inj happ
    have h3 : s' = (Scheduler.enqueue s id item).1 := by rw [h2]
    rw [h3]
    exact Scheduler.inv_enqueue h id item
  | skipQ id =>
    simp only [applyOp] at happ
    have h2 := Option.some.inj happ
    have h3 : s' = (Scheduler.mark_skip s id).1 := by rw [h2]
    rw [h3]
    exact Scheduler.inv_mark_skip h id
  | runQ quantum steps fuel =>
    exact Scheduler.inv_run h happ

/-- Every reachable engine state satisfies the invariant. -/
theorem reachable_inv {s : SchedState} (h : Reachable s) : Inv s := by
  induction h with
  | init => exact inv_init
  | step _ happ ih => exact inv_applyOp ih happ

/-! ### Equations for the four cases of a single turn -/

namespace Scheduler

theorem turn_skip_eq {s : SchedState} {queue_id : String} (quantum : Int)
    (h : s.skip_pending queue_id = true) :
    perform_single_turn s queue_id quantum
      = (setSkip s queue_id false,
         [log_time_event s "run" (some queue_id) none none none,
          log_time_event (setSkip s queue_id false) "skip" (some queue_id) none none none]) := by
  simp [perform_single_turn, h]

theorem turn_no_queue_eq {s : SchedState} {queue_id : String} (quantum : Int)
    (hskip : s.skip_pending queue_id = false) (hq : s.queues queue_id = none) :
    perform_single_turn s queue_id quantum
      = (s, [log_time_event s "run" (some queue_id) none none none]) := by
  simp [perform_single_turn, hskip, hq]

theorem turn_empty_eq {s : SchedState} {queue_id : String} {q : QueueRR} (quantum : Int)
    (hskip : s.skip_pending queue_id = false) (hq : s.queues queue_id = some q)
    (hsz : q.size = 0) :
    perform_single_turn s queue_id quantum
      = (s, [log_time_event s "run" (some queue_id) none none none]) := by
  simp [perform_single_turn, hskip, hq, hsz]

theorem turn_work_eq {s : SchedState} {queue_id : String} {q : QueueRR} {t0 : Task}
    (quantum : Int) (hskip : s.skip_pending queue_id = false)
    (hq : s.queues queue_id = some q) (hsz : ¬ q.size = 0)
    (ht0 : (q.dequeue).1 = some t0) :
    perform_single_turn s queue_id quantum
      = if t0.remaining - min t0.remaining quantum ≤ 0 then
          ({ setQueue s queue_id q.dequeue.2 with time := s.time + min t0.remaining quantum },
           [log_time_event s "run" (some queue_id) none none none,
            ⟨s.time + min t0.remaining quantum, "work", some queue_id, some t0.task_id,
              some 0, none⟩,
            ⟨s.time + min t0.remaining quantum, "finish", some queue_id, some t0.task_id,
              none, none⟩])
        else
          (setQueue { setQueue s queue_id q.dequeue.2 with
              time := s.time + min t0.remaining quantum } queue_id
            ((q.dequeue.2).enqueue
              ⟨t0.task_id, t0.remaining - min t0.remaining quantum⟩).2,
           [log_time_event s "run" (some queue_id) none none none,
            ⟨s.time + min t0.remaining quantum, "work", some queue_id, some t0.task_id,
              some (t0.remaining - min t0.remaining quantum), none⟩]) := by
  simp only [perform_single_turn, hskip, Bool.false_eq_true, if_false, hq, hsz, ht0,
    log_time_event, setQueue]

end Scheduler

/-! ### C1: re-creating an existing queue id -/

/-- C1: the claim fails on the code.  Creating queue `a` twice leaves a
duplicate entry `["a", "a"]` in `_order`, and re-creating `a` after a
`mark_skip` resets the pending skip flag to `False`, because
`create_queue` appends to `_order` and clears the flag unconditionally
(contradicting both the spec and the source's own comment "keep creation
order unchanged"). -/
theorem create_queue_existing_id_bug :
    ((Scheduler.create_queue (Scheduler.create_queue Scheduler.initState "a" 1).1 "a" 1).1.order
       = ["a", "a"])
    ∧ ((Scheduler.mark_skip (Scheduler.create_queue Scheduler.initState "a" 1).1 "a").1.skip_pending "a"
       = true)
    ∧ ((Scheduler.create_queue
          (Scheduler.mark_skip (Scheduler.create_queue Scheduler.initState "a" 1).1 "a").1
          "a" 1).1.skip_pending "a"
       = false) :=
  ⟨rfl, rfl, rfl⟩

/-! ### C2: skip takes strict precedence over work -/

/-- C2: a single turn against a queue whose skip flag is pending clears the
flag (and only that flag), emits exactly the two events `run` then `skip`
for that queue, leaves the global clock unchanged, and leaves every queue
object (hence order, task ids and remaining values) unchanged. -/
theorem turn_skip_precedence (s : SchedState) (queue_id : String) (quantum : Int)
    (h : s.skip_pending queue_id = true) :
    (Scheduler.perform_single_turn s queue_id quantum).2
      = [⟨s.time, "run", some queue_id, none, none, none⟩,
         ⟨s.time, "skip", some queue_id, none, none, none⟩]
    ∧ (Scheduler.perform_single_turn s queue_id quantum).1.time = s.time
    ∧ (Scheduler.perform_single_turn s queue_id quantum).1.queues = s.queues
    ∧ (Scheduler.perform_single_turn s queue_id quantum).1.order = s.order
    ∧ (Scheduler.perform_single_turn s queue_id quantum).1.next_index = s.next_index
    ∧ (Scheduler.perform_single_turn s queue_id quantum).1.skip_pending queue_id = false
    ∧ (∀ k, k ≠ queue_id →
        (Scheduler.perform_single_turn s queue_id quantum).1.skip_pending k
          = s.skip_pending k) := by
  rw [Scheduler.turn_skip_eq quantum h]
  refine ⟨rfl, rfl, rfl, rfl, rfl, by simp [Scheduler.setSkip], ?_⟩
  intro k hk
  simp [Scheduler.setSkip, hk]

/-- Witness for C2 at a concrete reachable state: queue `a` holds a task
and has its skip flag pending. -/
theorem turn_skip_precedence_witness :
    sampleSkip.skip_pending "a" = true
    ∧ ((Scheduler.perform_single_turn sampleSkip "a" 1).2
        = [⟨sampleSkip.time, "run", some "a", none, none, none⟩,
           ⟨sampleSkip.time, "skip", some "a", none, none, none⟩]
      ∧ (Scheduler.perform_single_turn sampleSkip "a" 1).1.time = sampleSkip.time
      ∧ (Scheduler.perform_single_turn sampleSkip "a" 1).1.queues = sampleSkip.queues
      ∧ (Scheduler.perform_single_turn sampleSkip "a" 1).1.order = sampleSkip.order
      ∧ (Scheduler.perform_single_turn sampleSkip "a" 1).1.next_index = sampleSkip.next_index
      ∧ (Scheduler.perform_single_turn sampleSkip "a" 1).1.skip_pending "a" = false
      ∧ (∀ k, k ≠ "a" →
          (Scheduler.perform_single_turn sampleSkip "a" 1).1.skip_pending k
            = sampleSkip.skip_pending k)) :=
  ⟨rfl, turn_skip_precedence sampleSkip "a" 1 rfl⟩

/-! ### C6: invalid `steps` argument -/

/-- C6: a `run` call whose `steps` violates `1 ≤ steps ≤ max(1, len(order))`
returns exactly one `error` event with reason `invalid_steps` and the
engine state completely unchanged; no turn is performed. -/
theorem run_invalid_steps (s : SchedState) (quantum k : Int) (fuel : Nat)
    (h : k < 1 ∨ k > max 1 (s.order.length : Int)) :
    Scheduler.run s quantum (some k) fuel
      = some (s, [⟨s.time, "error", none, none, none, some "invalid_steps"⟩]) := by
  unfold Scheduler.run
  simp only
  rw [if_pos h]
  rfl

/-- Witness for C6: `steps = 0` on an engine with two queues. -/
theorem run_invalid_steps_witness :
    ((0 : Int) < 1 ∨ (0 : Int) > max 1 (sampleTwo.order.length : Int))
    ∧ Scheduler.run sampleTwo 1 (some 0) 0
        = some (sampleTwo, [⟨sampleTwo.time, "error", none, none, none, some "invalid_steps"⟩]) :=
  ⟨Or.inl (by decide), run_invalid_steps sampleTwo 1 0 0 (Or.inl (by decide))⟩

/-! ### C9: run-to-quiescence on a quiescent engine -/

/-- C9: a `run` call without `steps` on an engine whose `_order` is empty,
or which is already quiescent (every queue empty, no skip pending), returns
an empty event log and the state unchanged. -/
theorem run_quiescent_noop (s : SchedState) (quantum : Int) (fuel : Nat)
    (h : s.order = [] ∨ Scheduler.quiescent s = true) :
    Scheduler.run s quantum none (fuel + 1) = some (s, []) := by
  unfold Scheduler.run
  simp only
  rcases h with h | h
  · rw [if_pos h]
  · by_cases ho : s.order = []
    · rw [if_pos ho]
    · rw [if_neg ho]
      unfold Scheduler.runQuiet
      rw [if_pos h]

/-- Witness for C9: the quiescent one-queue engine `sampleA`. -/
theorem run_quiescent_noop_witness :
    (sampleA.order = [] ∨ Scheduler.quiescent sampleA = true)
    ∧ Scheduler.run sampleA 1 none 1 = some (sampleA, []) :=
  ⟨Or.inr rfl, run_quiescent_noop sampleA 1 0 (Or.inr rfl)⟩

/-! ### Concrete reachable states for witnesses -/

theorem reachable_sampleA : Reachable sampleA :=
  @Reachable.step Scheduler.initState sampleA (Op.createQ "a" 2)
    (Scheduler.create_queue Scheduler.initState "a" 2).2 Reachable.init rfl

theorem reachable_sampleLoaded : Reachable sampleLoaded :=
  @Reachable.step sampleA sampleLoaded (Op.submitQ "a" "americano")
    (Scheduler.enqueue sampleA "a" "americano").2 reachable_sampleA rfl

theorem reachable_sampleSkip : Reachable sampleSkip :=
  @Reachable.step sampleLoaded sampleSkip (Op.skipQ "a")
    (Scheduler.mark_skip sampleLoaded "a").2 reachable_sampleLoaded rfl

/-! ### C7: per-queue task-id generation -/

namespace QueueRR

theorem genIds_go (n : Nat) : ∀ q : QueueRR,
    (q.genIds n).1
      = (List.range n).map (fun k => q.queue_id ++ "-" ++ pad3 (q.next_task_num + k))
    ∧ (q.genIds n).2.next_task_num = q.next_task_num + n
    ∧ (q.genIds n).2.queue_id = q.queue_id := by
  induction n with
  | zero => intro q; exact ⟨rfl, rfl, rfl⟩
  | succ n ih =>
    intro q
    obtain ⟨h1, h2, h3⟩ := ih q.next_task_id.2
    refine ⟨?_, ?_, ?_⟩
    · show q.next_task_id.1 :: (q.next_task_id.2.genIds n).1
        = (List.range (n + 1)).map (fun k => q.queue_id ++ "-" ++ pad3 (q.next_task_num + k))
      rw [h1, List.range_succ_eq_map, List.map_cons, List.map_map]
      congr 1
      apply List.map_congr_left
      intro k hk
      show q.queue_id ++ "-" ++ pad3 (q.next_task_num + 1 + k)
        = q.queue_id ++ "-" ++ pad3 (q.next_task_num + (k + 1))
      have hx : q.next_task_num + 1 + k = q.next_task_num + (k + 1) := by omega
      rw [hx]
    · show (q.next_task_id.2.genIds n).2.next_task_num = q.next_task_num + (n + 1)
      rw [h2]
      show q.next_task_num + 1 + n = q.next_task_num + (n + 1)
      omega
    · show (q.next_task_id.2.genIds n).2.queue_id = q.queue_id
      rw [h3]
      rfl

theorem enqueue_next_task_num (q : QueueRR) (t : Task) :
    ((q.enqueue t).2).next_task_num = q.next_task_num := by
  unfold enqueue
  split <;> rfl

theorem dequeue_next_task_num (q : QueueRR) :
    ((q.dequeue).2).next_task_num = q.next_task_num := by
  unfold dequeue
  split <;> rfl

end QueueRR

/-- C7: successive calls of the per-queue task-id generator return
`<queue-id>-<counter zero-padded to 3 digits>`, counting up by exactly one
from 1 on a fresh queue; the generated ids are pairwise distinct, and the
counter survives `enqueue` and `dequeue` (so ids are never reused across
rejected submissions or dequeue/re-enqueue). -/
theorem task_id_generation_spec (queue_id : String) (capacity : Int) (n : Nat) :
    ((QueueRR.mkQueue queue_id capacity).genIds n).1
      = (List.range n).map (fun k => queue_id ++ "-" ++ QueueRR.pad3 (k + 1))
    ∧ ((QueueRR.mkQueue queue_id capacity).genIds n).1.Nodup
    ∧ ((QueueRR.mkQueue queue_id capacity).genIds n).2.next_task_num = n + 1
    ∧ (∀ q : QueueRR,
        (q.next_task_id).1 = q.queue_id ++ "-" ++ QueueRR.pad3 q.next_task_num
        ∧ (q.next_task_id).2.next_task_num = q.next_task_num + 1)
    ∧ (∀ (q : QueueRR) (t : Task), ((q.enqueue t).2).next_task_num = q.next_task_num)
    ∧ (∀ q : QueueRR, ((q.dequeue).2).next_task_num = q.next_task_num) := by
  obtain ⟨h1, h2, _⟩ := QueueRR.genIds_go n (QueueRR.mkQueue queue_id capacity)
  have hform : ((QueueRR.mkQueue queue_id capacity).genIds n).1
      = (List.range n).map (fun k => queue_id ++ "-" ++ QueueRR.pad3 (k + 1)) := by
    rw [h1]
    apply List.map_congr_left
    intro k hk
    show queue_id ++ "-" ++ QueueRR.pad3 (1 + k) = queue_id ++ "-" ++ QueueRR.pad3 (k + 1)
    rw [Nat.add_comm]
  refine ⟨hform, ?_, ?_, fun q => ⟨rfl, rfl⟩,
    QueueRR.enqueue_next_task_num, QueueRR.dequeue_next_task_num⟩
  · rw [hform]
    refine List.Nodup.map_on ?_ (List.nodup_range n)
    intro x hx y hy hxy
    have := QueueRR.taskId_inj hxy
    omega
  · have h2' : ((QueueRR.mkQueue queue_id capacity).genIds n).2.next_task_num = 1 + n := h2
    rw [h2', Nat.add_comm]

/-! ### C5: submission outcomes -/

/-- C5: submitting to a never-created queue emits a single `unknown_queue`
error and consumes no task id; submitting to an existing queue always
consumes exactly one id from that queue's counter, and an unknown item or a
full queue yields a single `reject` event carrying the generated id while
leaving the queue's contents and the clock unchanged. -/
theorem submit_spec (s : SchedState) (queue_id item_name : String) (q : QueueRR)
    (hq : s.queues queue_id = some q) :
    (∀ s0 : SchedState, s0.queues queue_id = none →
        Scheduler.enqueue s0 queue_id item_name
          = (s0, [⟨s0.time, "error", some queue_id, none, none, some "unknown_queue"⟩]))
    ∧ (∃ q', (Scheduler.enqueue s queue_id item_name).1.queues queue_id = some q'
          ∧ q'.next_task_num = q.next_task_num + 1)
    ∧ (Scheduler.menu item_name = none →
        Scheduler.enqueue s queue_id item_name
          = (Scheduler.setQueue s queue_id q.next_task_id.2,
             [⟨s.time, "reject", some queue_id, some q.next_task_id.1, none,
               some "unknown_item"⟩]))
    ∧ (∀ burst : Int, Scheduler.menu item_name = some burst → q.size ≥ q.capacity →
        Scheduler.enqueue s queue_id item_name
          = (Scheduler.setQueue s queue_id q.next_task_id.2,
             [⟨s.time, "reject", some queue_id, some q.next_task_id.1, none, some "full"⟩]))
    ∧ q.next_task_id.2.contents_front_to_back = q.contents_front_to_back
    ∧ (Scheduler.enqueue s queue_id item_name).1.time = s.time := by
  refine ⟨?_, ?_, ?_, ?_, rfl, ?_⟩
  · intro s0 h0
    unfold Scheduler.enqueue
    rw [h0]
    rfl
  · unfold Scheduler.enqueue
    rw [hq]
    dsimp only
    cases hm : Scheduler.menu item_name with
    | none =>
      exact ⟨q.next_task_id.2, by simp [Scheduler.setQueue], rfl⟩
    | some burst =>
      dsimp only
      split
      · exact ⟨q.next_task_id.2, by simp [Scheduler.setQueue], rfl⟩
      · split
        · refine ⟨(q.next_task_id.2.enqueue ⟨q.next_task_id.1, burst⟩).2,
            by simp [Scheduler.setQueue], ?_⟩
          rw [QueueRR.enqueue_next_task_num]
          rfl
        · refine ⟨(q.next_task_id.2.enqueue ⟨q.next_task_id.1, burst⟩).2,
            by simp [Scheduler.setQueue], ?_⟩
          rw [QueueRR.enqueue_next_task_num]
          rfl
  · intro hm
    unfold Scheduler.enqueue
    rw [hq]
    dsimp only
    rw [hm]
    rfl
  · intro burst hm hcap
    unfold Scheduler.enqueue
    rw [hq]
    dsimp only
    rw [hm]
    dsimp only
    rw [if_pos (show q.next_task_id.2.size ≥ q.next_task_id.2.capacity from hcap)]
    rfl
  · unfold Scheduler.enqueue
    rw [hq]
    dsimp only
    cases hm : Scheduler.menu item_name with
    | none => rfl
    | some burst =>
      dsimp only
      split
      · rfl
      · split <;> rfl

/-- Witness for C5: submitting the unknown item `espresso` to queue `a` of
`sampleA`. -/
theorem submit_spec_witness :
    sampleA.queues "a" = some (QueueRR.mkQueue "a" 2)
    ∧ ((∀ s0 : SchedState, s0.queues "a" = none →
        Scheduler.enqueue s0 "a" "espresso"
          = (s0, [⟨s0.time, "error", some "a", none, none, some "unknown_queue"⟩]))
    ∧ (∃ q', (Scheduler.enqueue sampleA "a" "espresso").1.queues "a" = some q'
          ∧ q'.next_task_num = (QueueRR.mkQueue "a" 2).next_task_num + 1)
    ∧ (Scheduler.menu "espresso" = none →
        Scheduler.enqueue sampleA "a" "espresso"
          = (Scheduler.setQueue sampleA "a" (QueueRR.mkQueue "a" 2).next_task_id.2,
             [⟨sampleA.time, "reject", some "a", some (QueueRR.mkQueue "a" 2).next_task_id.1,
               none, some "unknown_item"⟩]))
    ∧ (∀ burst : Int, Scheduler.menu "espresso" = some burst →
        (QueueRR.mkQueue "a" 2).size ≥ (QueueRR.mkQueue "a" 2).capacity →
        Scheduler.enqueue sampleA "a" "espresso"
          = (Scheduler.setQueue sampleA "a" (QueueRR.mkQueue "a" 2).next_task_id.2,
             [⟨sampleA.time, "reject", some "a", some (QueueRR.mkQueue "a" 2).next_task_id.1,
               none, some "full"⟩]))
    ∧ (QueueRR.mkQueue "a" 2).next_task_id.2.contents_front_to_back
        = (QueueRR.mkQueue "a" 2).contents_front_to_back
    ∧ (Scheduler.enqueue sampleA "a" "espresso").1.time = sampleA.time) :=
  ⟨rfl, submit_spec sampleA "a" "espresso" (QueueRR.mkQueue "a" 2) rfl⟩

/-! ### C3: capacity is never exceeded -/

/-- C3: in every reachable engine state every stored queue satisfies
`size ≤ capacity`; an `enqueue` on a queue whose size equals its capacity
returns `False` and mutates nothing, otherwise it appends at the back and
returns `True`; a capacity-0 queue rejects every enqueue. -/
theorem capacity_invariant (s : SchedState) (hs : Reachable s) :
    (∀ qid q, s.queues qid = some q → q.size ≤ q.capacity)
    ∧ (∀ (q : QueueRR) (t : Task), q.size = q.capacity → q.enqueue t = (false, q))
    ∧ (∀ qid q, s.queues qid = some q → ∀ t : Task, q.size < q.capacity →
        (q.enqueue t).1 = true
        ∧ (q.enqueue t).2.contents_front_to_back = q.contents_front_to_back ++ [t]
        ∧ (q.enqueue t).2.size = q.size + 1)
    ∧ (∀ (q : QueueRR) (t : Task), q.capacity = 0 → q.enqueue t = (false, q)) := by
  have hinv := reachable_inv hs
  refine ⟨fun qid q hq => (hinv.hwf qid q hq).hsize, ?_, ?_, ?_⟩
  · intro q t hfull
    unfold QueueRR.enqueue
    rw [if_pos (by omega)]
  · intro qid q hq t hlt
    obtain ⟨e1, e2, e3, _⟩ := QueueRR.enqueue_spec (hinv.hwf qid q hq) t hlt
    exact ⟨e1, e2, e3⟩
  · intro q t hcap0
    unfold QueueRR.enqueue
    rw [if_pos (by omega)]

/-- Witness for C3 at the reachable state `sampleLoaded`. -/
theorem capacity_invariant_witness :
    Reachable sampleLoaded
    ∧ sampleLoaded.queues "a" = some sampleQueueA
    ∧ sampleQueueA.size ≤ sampleQueueA.capacity :=
  ⟨reachable_sampleLoaded, by decide,
    (capacity_invariant sampleLoaded reachable_sampleLoaded).1 "a" sampleQueueA (by decide)⟩

/-! ### C8: the re-enqueue of a partially worked task -/

/-- C8: in a work turn whose dequeued front task still has positive
remaining after the quantum is applied, the re-enqueue at the back of the
same queue succeeds (the `False` branch of `enqueue` is unreachable), the
task keeps its id with decremented remaining and lands at the back of the
queue, and the emitted `work` event carries the post-work remaining. -/
theorem requeue_partial_spec (s : SchedState) (queue_id : String) (quantum : Int)
    (q : QueueRR) (t0 : Task) (hs : Reachable s)
    (hq : s.queues queue_id = some q) (hskip : s.skip_pending queue_id = false)
    (hsz : ¬ q.size = 0) (ht0 : (q.dequeue).1 = some t0)
    (hrem : 0 < t0.remaining - min t0.remaining quantum) :
    ((q.dequeue.2).enqueue ⟨t0.task_id, t0.remaining - min t0.remaining quantum⟩).1 = true
    ∧ q.contents_front_to_back = t0 :: q.dequeue.2.contents_front_to_back
    ∧ (∃ q2, (Scheduler.perform_single_turn s queue_id quantum).1.queues queue_id = some q2
        ∧ q2.contents_front_to_back
            = q.dequeue.2.contents_front_to_back
              ++ [⟨t0.task_id, t0.remaining - min t0.remaining quantum⟩])
    ∧ (Scheduler.perform_single_turn s queue_id quantum).2
        = [⟨s.time, "run", some queue_id, none, none, none⟩,
           ⟨s.time + min t0.remaining quantum, "work", some queue_id, some t0.task_id,
             some (t0.remaining - min t0.remaining quantum), none⟩] := by
  have hwfq := (reachable_inv hs).hwf queue_id q hq
  obtain ⟨t0', ht0', hrem0, hcont, hsz', hcap', hqid', hnum', hwf'⟩ :=
    QueueRR.dequeue_spec hwfq (Nat.pos_of_ne_zero hsz)
  rw [ht0] at ht0'
  have ht0e : t0 = t0' := Option.some.inj ht0'
  subst ht0e
  have hlt : q.dequeue.2.size < q.dequeue.2.capacity := by
    rw [hsz', hcap']
    have := hwfq.hsize
    omega
  obtain ⟨e1, e2, _⟩ := QueueRR.enqueue_spec hwf'
    ⟨t0.task_id, t0.remaining - min t0.remaining quantum⟩ hlt
  rw [Scheduler.turn_work_eq quantum hskip hq hsz ht0]
  rw [if_neg (by omega : ¬ t0.remaining - min t0.remaining quantum ≤ 0)]
  refine ⟨e1, hcont, ⟨_, ?_, e2⟩, rfl⟩
  simp [Scheduler.setQueue]

/-- Witness for C8: working queue `a` of `sampleLoaded` with quantum 1:
task `a-001` (remaining 2) is worked down to 1 and re-enqueued. -/
theorem requeue_partial_spec_witness :
    Reachable sampleLoaded
    ∧ sampleLoaded.queues "a" = some sampleQueueA
    ∧ sampleLoaded.skip_pending "a" = false
    ∧ ¬ sampleQueueA.size = 0
    ∧ (sampleQueueA.dequeue).1 = some ⟨"a-001", 2⟩
    ∧ 0 < (⟨"a-001", 2⟩ : Task).remaining - min (⟨"a-001", 2⟩ : Task).remaining 1
    ∧ (((sampleQueueA.dequeue.2).enqueue
          ⟨"a-001", (2 : Int) - min 2 1⟩).1 = true
      ∧ sampleQueueA.contents_front_to_back
          = (⟨"a-001", 2⟩ : Task) :: sampleQueueA.dequeue.2.contents_front_to_back
      ∧ (∃ q2, (Scheduler.perform_single_turn sampleLoaded "a" 1).1.queues "a" = some q2
          ∧ q2.contents_front_to_back
              = sampleQueueA.dequeue.2.contents_front_to_back
                ++ [⟨"a-001", (2 : Int) - min 2 1⟩])
      ∧ (Scheduler.perform_single_turn sampleLoaded "a" 1).2
          = [⟨sampleLoaded.time, "run", some "a", none, none, none⟩,
             ⟨sampleLoaded.time + min 2 1, "work", some "a", some "a-001",
               some ((2 : Int) - min 2 1), none⟩]) :=
  ⟨reachable_sampleLoaded, by decide, rfl, by decide, by decide, by decide,
    requeue_partial_spec sampleLoaded "a" 1 sampleQueueA ⟨"a-001", 2⟩
      reachable_sampleLoaded (by decide) rfl (by decide) (by decide) (by decide)⟩

/-! ### C4: clock accounting -/

namespace Scheduler

/-- One turn advances the clock by exactly `turnWorked`. -/
theorem turn_time (s : SchedState) (queue_id : String) (quantum : Int) :
    (perform_single_turn s queue_id quantum).1.time
      = s.time + turnWorked s queue_id quantum := by
  unfold perform_single_turn turnWorked
  split
  · show (setSkip s queue_id false).time = s.time + 0
    simp [setSkip]
  · cases hq : s.queues queue_id with
    | none => show s.time = s.time + 0; simp
    | some q =>
      dsimp only
      split
      · show s.time = s.time + 0; simp
      · cases hd : (q.dequeue).1 with
        | none =>
          show (setQueue s queue_id q.dequeue.2).time = s.time + 0
          simp [setQueue]
        | some t =>
          dsimp only
          split
          · show s.time + min t.remaining quantum = s.time + min t.remaining quantum
            rfl
          · show (setQueue _ queue_id _).time = s.time + min t.remaining quantum
            simp [setQueue]

theorem turnWorked_nonneg {s : SchedState} (hinv : Inv s) (queue_id : String)
    {quantum : Int} (hquant : 0 ≤ quantum) : 0 ≤ turnWorked s queue_id quantum := by
  unfold turnWorked
  split
  · exact le_refl 0
  · cases hq : s.queues queue_id with
    | none => exact le_refl 0
    | some q =>
      dsimp only
      split
      · exact le_refl 0
      · rename_i hsz
        obtain ⟨t0, ht0, hrem0, _⟩ :=
          QueueRR.dequeue_spec (hinv.hwf queue_id q hq) (Nat.pos_of_ne_zero hsz)
        rw [ht0]
        exact le_min (by omega) hquant

theorem enqueue_time (s : SchedState) (queue_id item_name : String) :
    (enqueue s queue_id item_name).1.time = s.time := by
  unfold enqueue
  cases hq : s.queues queue_id with
  | none => rfl
  | some q =>
    dsimp only
    cases hm : menu item_name with
    | none => rfl
    | some burst =>
      dsimp only
      split
      · rfl
      · split <;> rfl

theorem mark_skip_time (s : SchedState) (queue_id : String) :
    (mark_skip s queue_id).1.time = s.time := by
  unfold mark_skip
  cases hq : s.queues queue_id <;> rfl

theorem runSteps_time_mono {s : SchedState} (hinv : Inv s) {quantum : Int}
    (hquant : 0 ≤ quantum) (n : Nat) : s.time ≤ (runSteps s quantum n).1.time := by
  induction n generalizing s with
  | zero => exact le_refl _
  | succ n ih =>
    unfold runSteps
    split
    · exact ih hinv
    · have h1 : s.time ≤ (perform_single_turn s (s.order.getD s.next_index "") quantum).1.time := by
        rw [turn_time]
        have := turnWorked_nonneg hinv (s.order.getD s.next_index "") hquant
        omega
      have hinv1 := inv_advance_index (inv_perform_single_turn hinv
        (s.order.getD s.next_index "") quantum)
      have h2 := ih hinv1
      have hadv : (advance_index (perform_single_turn s (s.order.getD s.next_index "")
          quantum).1).time
          = (perform_single_turn s (s.order.getD s.next_index "") quantum).1.time := by
        unfold advance_index
        split <;> rfl
      rw [hadv] at h2
      exact le_trans h1 h2

theorem runQuiet_time_mono {quantum : Int} (hquant : 0 ≤ quantum) :
    ∀ (fuel : Nat) (s s' : SchedState) (evs : List Event), Inv s →
      runQuiet quantum fuel s = some (s', evs) → s.time ≤ s'.time := by
  intro fuel
  induction fuel with
  | zero =>
    intro s s' evs _ hrun
    exact absurd hrun (by simp [runQuiet])
  | succ fuel ih =>
    intro s s' evs hinv hrun
    unfold runQuiet at hrun
    split at hrun
    · cases hrun
      exact le_refl _
    · dsimp only at hrun
      cases hr : runQuiet quantum fuel
          (advance_index (perform_single_turn s (s.order.getD s.next_index "") quantum).1) with
      | none =>
        rw [hr] at hrun
        exact absurd hrun (by simp)
      | some r =>
        rw [hr] at hrun
        obtain ⟨r1, r2⟩ := r
        have h2 := Option.some.inj hrun
        have hs' : r1 = s' := congrArg Prod.fst h2
        subst hs'
        have hinv1 := inv_advance_index (inv_perform_single_turn hinv
          (s.order.getD s.next_index "") quantum)
        have h3 := ih _ r1 r2 hinv1 hr
        have h1 : s.time ≤ (perform_single_turn s (s.order.getD s.next_index "")
            quantum).1.time := by
          rw [turn_time]
          have := turnWorked_nonneg hinv (s.order.getD s.next_index "") hquant
          omega
        have hadv : (advance_index (perform_single_turn s (s.order.getD s.next_index "")
            quantum).1).time
            = (perform_single_turn s (s.order.getD s.next_index "") quantum).1.time := by
          unfold advance_index
          split <;> rfl
        rw [hadv] at h3
        exact le_trans h1 h3

theorem run_time_mono {s s' : SchedState} {quantum : Int} {steps : Option Int} {fuel : Nat}
    {evs : List Event} (hinv : Inv s) (hquant : 0 ≤ quantum)
    (hrun : run s quantum steps fuel = some (s', evs)) : s.time ≤ s'.time := by
  unfold run at hrun
  cases steps with
  | some k =>
    simp only at hrun
    split at hrun
    · cases hrun
      exact le_refl _
    · have h2 := Option.some.inj hrun
      have h3 : s' = (runSteps s quantum k.toNat).1 := by rw [h2]
      rw [h3]
      exact runSteps_time_mono hinv hquant k.toNat
  | none =>
    simp only at hrun
    split at hrun
    · cases hrun
      exact le_refl _
    · exact runQuiet_time_mono hquant fuel s s' evs hinv hrun

end Scheduler

theorem execOps_time_mono :
    ∀ (ops : List Op) (s s' : SchedState), Reachable s →
      (∀ op ∈ ops, goodQuantum op) → execOps s ops = some s' → s.time ≤ s'.time := by
  intro ops
  induction ops with
  | nil =>
    intro s s' _ _ hexec
    cases hexec
    exact le_refl _
  | cons op ops ih =>
    intro s s' hs hgood hexec
    unfold execOps at hexec
    cases happ : applyOp s op with
    | none =>
      rw [happ] at hexec
      exact absurd hexec (by simp)
    | some r =>
      rw [happ] at hexec
      have hreach : Reachable r.1 := Reachable.step hs (by rw [happ])
      have hrest := ih r.1 s' hreach (fun o ho => hgood o (List.mem_cons_of_mem op ho)) hexec
      have hfirst : s.time ≤ r.1.time := by
        cases op with
        | createQ id cap =>
          have hr : r = Scheduler.create_queue s id cap := Option.some.inj happ.symm
          rw [hr]
          exact le_refl _
        | submitQ id item =>
          have hr : r = Scheduler.enqueue s id item := Option.some.inj happ.symm
          rw [hr, Scheduler.enqueue_time]
        | skipQ id =>
          have hr : r = Scheduler.mark_skip s id := Option.some.inj happ.symm
          rw [hr, Scheduler.mark_skip_time]
        | runQ quantum steps fuel =>
          have hqg : (1 : Int) ≤ quantum := hgood (Op.runQ quantum steps fuel)
            (List.mem_cons_self _ _)
          obtain ⟨r1, r2⟩ := r
          exact Scheduler.run_time_mono (reachable_inv hs) (by omega) happ
      exact le_trans hfirst hrest

/-- C4: the clock never moves during `create_queue`, submission or
`mark_skip`; a single turn advances it by exactly `turnWorked` (which is 0
for a skip-consuming or empty turn, and `min(front.remaining, quantum)` for
a work turn); and across any sequence of completed operations whose run
quanta are ≥ 1 the clock never decreases. -/
theorem clock_monotone_exact (s : SchedState) (hs : Reachable s) :
    (∀ queue_id capacity, (Scheduler.create_queue s queue_id capacity).1.time = s.time)
    ∧ (∀ queue_id item_name, (Scheduler.enqueue s queue_id item_name).1.time = s.time)
    ∧ (∀ queue_id, (Scheduler.mark_skip s queue_id).1.time = s.time)
    ∧ (∀ queue_id quantum, (Scheduler.perform_single_turn s queue_id quantum).1.time
        = s.time + turnWorked s queue_id quantum)
    ∧ (∀ queue_id quantum, s.skip_pending queue_id = true →
        turnWorked s queue_id quantum = 0)
    ∧ (∀ queue_id quantum, s.skip_pending queue_id = false →
        Scheduler.sizeAt s queue_id = 0 → turnWorked s queue_id quantum = 0)
    ∧ (∀ (ops : List Op) (s' : SchedState), (∀ op ∈ ops, goodQuantum op) →
        execOps s ops = some s' → s.time ≤ s'.time) := by
  refine ⟨fun _ _ => rfl, Scheduler.enqueue_time s, Scheduler.mark_skip_time s,
    Scheduler.turn_time s, ?_, ?_, fun ops s' => execOps_time_mono ops s s' hs⟩
  · intro queue_id quantum hskip
    unfold turnWorked
    rw [if_pos hskip]
  · intro queue_id quantum hskip hsz
    unfold turnWorked
    rw [if_neg (by rw [hskip]; exact Bool.false_ne_true)]
    unfold Scheduler.sizeAt at hsz
    cases hq : s.queues queue_id with
    | none => rfl
    | some q =>
      rw [hq] at hsz
      dsimp only
      rw [if_pos hsz]

/-- Witness for C4 at `sampleLoaded`: one work turn with quantum 1 advances
the clock by exactly `turnWorked`. -/
theorem clock_monotone_exact_witness :
    Reachable sampleLoaded
    ∧ (Scheduler.perform_single_turn sampleLoaded "a" 1).1.time
        = sampleLoaded.time + turnWorked sampleLoaded "a" 1 :=
  ⟨reachable_sampleLoaded,
    (clock_monotone_exact sampleLoaded reachable_sampleLoaded).2.2.2.1 "a" 1⟩

/-! ### C10: termination infrastructure -/

theorem sum_map_congr_mem {l : List String} {f g : String → Nat}
    (h : ∀ y ∈ l, f y = g y) : (l.map f).sum = (l.map g).sum := by
  rw [List.map_congr_left h]

/-- Summing over a duplicate-free list: if one listed element's value drops
and the others are unchanged, the sum drops. -/
theorem sum_map_lt_of_mem {l : List String} (hnd : l.Nodup) {x : String} (hx : x ∈ l)
    {f g : String → Nat} (hothers : ∀ y ∈ l, y ≠ x → f y = g y) (hlt : f x < g x) :
    (l.map f).sum < (l.map g).sum := by
  induction l with
  | nil => exact absurd hx (List.not_mem_nil x)
  | cons a l ih =>
    rw [List.nodup_cons] at hnd
    rcases List.mem_cons.mp hx with hxa | hxl
    · subst hxa
      have hrest : (l.map f).sum = (l.map g).sum := by
        apply sum_map_congr_mem
        intro y hy
        exact hothers y (List.mem_cons_of_mem x hy) (fun hyx => hnd.1 (hyx ▸ hy))
      simp only [List.map_cons, List.sum_cons, hrest]
      omega
    · have hax : a ≠ x := fun hax => hnd.1 (hax ▸ hxl)
      have ha : f a = g a := hothers a (List.mem_cons_self a l) hax
      have hrest := ih hnd.2 hxl
        (fun y hy hyx => hothers y (List.mem_cons_of_mem a hy) hyx)
      simp only [List.map_cons, List.sum_cons, ha]
      omega

namespace Scheduler

theorem setQueue_queues_eq (s : SchedState) (qid : String) (q' : QueueRR) :
    (setQueue s qid q').queues qid = some q' := by
  simp [setQueue]

theorem setQueue_queues_ne (s : SchedState) {qid y : String} (h : y ≠ qid) (q' : QueueRR) :
    (setQueue s qid q').queues y = s.queues y := by
  simp [setQueue, h]

theorem setSkip_skip_ne (s : SchedState) {qid y : String} (h : y ≠ qid) (b : Bool) :
    (setSkip s qid b).skip_pending y = s.skip_pending y := by
  simp [setSkip, h]

theorem turn_order (s : SchedState) (queue_id : String) (quantum : Int) :
    (perform_single_turn s queue_id quantum).1.order = s.order := by
  unfold perform_single_turn
  split
  · rfl
  · cases hq : s.queues queue_id with
    | none => rfl
    | some q =>
      dsimp only
      split
      · rfl
      · cases hd : (q.dequeue).1 with
        | none => rfl
        | some t =>
          dsimp only
          split <;> rfl

theorem turn_next_index (s : SchedState) (queue_id : String) (quantum : Int) :
    (perform_single_turn s queue_id quantum).1.next_index = s.next_index := by
  unfold perform_single_turn
  split
  · rfl
  · cases hq : s.queues queue_id with
    | none => rfl
    | some q =>
      dsimp only
      split
      · rfl
      · cases hd : (q.dequeue).1 with
        | none => rfl
        | some t =>
          dsimp only
          split <;> rfl

theorem advance_order (s : SchedState) : (advance_index s).order = s.order := by
  unfold advance_index
  split <;> rfl

/-- The two facts `quiescent` packs: every listed queue is empty and no
listed skip flag is pending. -/
theorem quiescent_spec {s : SchedState} (h : quiescent s = true) :
    (∀ qid ∈ s.order, sizeAt s qid = 0) ∧ (∀ qid ∈ s.order, s.skip_pending qid = false) := by
  unfold quiescent at h
  rw [Bool.and_eq_true] at h
  obtain ⟨h1, h2⟩ := h
  constructor
  · intro qid hqid
    have := List.all_eq_true.mp h1 qid hqid
    simpa using this
  · intro qid hqid
    rw [Bool.not_eq_true'] at h2
    have := List.any_eq_false.mp h2 qid hqid
    simpa using this

theorem quiescent_false_of_nontrivial {s : SchedState} {qid : String} (hqid : qid ∈ s.order)
    (h : s.skip_pending qid = true ∨ sizeAt s qid ≠ 0) : quiescent s = false := by
  cases hqe : quiescent s with
  | false => rfl
  | true =>
    exfalso
    obtain ⟨h1, h2⟩ := quiescent_spec hqe
    rcases h with h | h
    · rw [h2 qid hqid] at h
      exact Bool.false_ne_true h
    · exact h (h1 qid hqid)

end Scheduler

theorem advance_measure (s : SchedState) :
    engineMeasure (Scheduler.advance_index s) = engineMeasure s := by
  unfold Scheduler.advance_index
  split <;> rfl

theorem siteMeasure_ext {s1 s : SchedState} (y : String) (hq : s1.queues y = s.queues y)
    (hs : s1.skip_pending y = s.skip_pending y) : siteMeasure s1 y = siteMeasure s y := by
  unfold siteMeasure
  rw [hq, hs]

theorem engineMeasure_eq_of_order {s1 s : SchedState} (h : s1.order = s.order) :
    engineMeasure s1 = (s.order.dedup.map (siteMeasure s1)).sum := by
  unfold engineMeasure
  rw [h]

theorem getD_mem_of_lt {l : List String} {j : Nat} (h : j < l.length) : l.getD j "" ∈ l := by
  rw [List.getD_eq_getElem?_getD, List.getElem?_eq_getElem h]
  exact List.getElem_mem h

theorem cycle_hit {len idx j : Nat} (hidx : idx < len) (hj : j < len) :
    (idx + (j + len - idx) % len) % len = j := by
  rw [Nat.add_mod_mod]
  have hsum : idx + (j + len - idx) = j + len := by omega
  rw [hsum, Nat.add_mod_right, Nat.mod_eq_of_lt hj]

/-- Progress: a turn against a listed queue that has a pending skip or a
task strictly decreases the engine measure (quantum ≥ 1). -/
theorem turn_measure_lt {s : SchedState} (hinv : Inv s) {qid : String} {quantum : Int}
    (hquant : 1 ≤ quantum) (hqid : qid ∈ s.order)
    (hnt : s.skip_pending qid = true ∨ Scheduler.sizeAt s qid ≠ 0) :
    engineMeasure (Scheduler.perform_single_turn s qid quantum).1 < engineMeasure s := by
  by_cases hskip : s.skip_pending qid = true
  · -- skip-consuming turn: the flag's contribution disappears
    rw [Scheduler.turn_skip_eq quantum hskip]
    show engineMeasure (Scheduler.setSkip s qid false) < engineMeasure s
    rw [engineMeasure_eq_of_order (rfl : (Scheduler.setSkip s qid false).order = s.order)]
    unfold engineMeasure
    refine sum_map_lt_of_mem (List.nodup_dedup s.order) (List.mem_dedup.mpr hqid) ?_ ?_
    · intro y hy hyx
      exact siteMeasure_ext y rfl (Scheduler.setSkip_skip_ne s hyx false)
    · have hflag : (Scheduler.setSkip s qid false).skip_pending qid = false := by
        simp [Scheduler.setSkip]
      unfold siteMeasure
      rw [hflag, hskip]
      have hqeq : (Scheduler.setSkip s qid false).queues qid = s.queues qid := rfl
      rw [hqeq]
      simp
  · -- work turn: the front task's contribution strictly drops
    have hskipF : s.skip_pending qid = false := by
      cases hb : s.skip_pending qid
      · rfl
      · exact absurd hb hskip
    have hsz : Scheduler.sizeAt s qid ≠ 0 := by
      rcases hnt with h | h
      · rw [hskipF] at h
        exact absurd h Bool.false_ne_true
      · exact h
    cases hq : s.queues qid with
    | none =>
      exfalso
      apply hsz
      unfold Scheduler.sizeAt
      rw [hq]
    | some q =>
      have hqsz : ¬ q.size = 0 := by
        intro h0
        apply hsz
        unfold Scheduler.sizeAt
        rw [hq]
        exact h0
      have hwfq := hinv.hwf qid q hq
      obtain ⟨t0, ht0, hrem0, hcont, hsz', hcap', hqid', hnum', hwf'⟩ :=
        QueueRR.dequeue_spec hwfq (Nat.pos_of_ne_zero hqsz)
      have hmin1 : 1 ≤ min t0.remaining quantum := le_min hrem0 hquant
      have hminle : min t0.remaining quantum ≤ t0.remaining := min_le_left _ _
      have hmq : q.queueMeasure = (t0.remaining.toNat + 1) + q.dequeue.2.queueMeasure := by
        unfold QueueRR.queueMeasure
        rw [hcont]
        simp
      rw [Scheduler.turn_work_eq quantum hskipF hq hqsz ht0]
      split
      · -- the task finishes and is discarded
        show engineMeasure ({ Scheduler.setQueue s qid q.dequeue.2 with
            time := s.time + min t0.remaining quantum }) < engineMeasure s
        rw [engineMeasure_eq_of_order
          (rfl : ({ Scheduler.setQueue s qid q.dequeue.2 with
            time := s.time + min t0.remaining quantum } : SchedState).order = s.order)]
        unfold engineMeasure
        refine sum_map_lt_of_mem (List.nodup_dedup s.order) (List.mem_dedup.mpr hqid) ?_ ?_
        · intro y hy hyx
          exact siteMeasure_ext y (Scheduler.setQueue_queues_ne s hyx _) rfl
        · have hq1 : ({ Scheduler.setQueue s qid q.dequeue.2 with
              time := s.time + min t0.remaining quantum } : SchedState).queues qid
              = some q.dequeue.2 := Scheduler.setQueue_queues_eq s qid _
          unfold siteMeasure
          rw [hq1, hq]
          dsimp only [Scheduler.setQueue]
          rw [hmq]
          omega
      · -- the task is re-enqueued with strictly smaller remaining
        rename_i hfin
        have hlt2 : q.dequeue.2.size < q.dequeue.2.capacity := by
          rw [hsz', hcap']
          have := hwfq.hsize
          omega
        obtain ⟨e1, e2, _⟩ := QueueRR.enqueue_spec hwf'
          ⟨t0.task_id, t0.remaining - min t0.remaining quantum⟩ hlt2
        have hmr : ((q.dequeue.2).enqueue
              ⟨t0.task_id, t0.remaining - min t0.remaining quantum⟩).2.queueMeasure
            = q.dequeue.2.queueMeasure
              + ((t0.remaining - min t0.remaining quantum).toNat + 1) := by
          unfold QueueRR.queueMeasure
          rw [e2]
          simp
        show engineMeasure (Scheduler.setQueue
            ({ Scheduler.setQueue s qid q.dequeue.2 with
              time := s.time + min t0.remaining quantum }) qid
            ((q.dequeue.2).enqueue
              ⟨t0.task_id, t0.remaining - min t0.remaining quantum⟩).2) < engineMeasure s
        rw [engineMeasure_eq_of_order (rfl : (Scheduler.setQueue
            ({ Scheduler.setQueue s qid q.dequeue.2 with
              time := s.time + min t0.remaining quantum }) qid
            ((q.dequeue.2).enqueue
              ⟨t0.task_id, t0.remaining - min t0.remaining quantum⟩).2).order = s.order)]
        unfold engineMeasure
        refine sum_map_lt_of_mem (List.nodup_dedup s.order) (List.mem_dedup.mpr hqid) ?_ ?_
        · intro y hy hyx
          refine siteMeasure_ext y ?_ rfl
          rw [Scheduler.setQueue_queues_ne _ hyx]
          exact Scheduler.setQueue_queues_ne s hyx _
        · have hq1 : (Scheduler.setQueue
              ({ Scheduler.setQueue s qid q.dequeue.2 with
                time := s.time + min t0.remaining quantum }) qid
              ((q.dequeue.2).enqueue
                ⟨t0.task_id, t0.remaining - min t0.remaining quantum⟩).2).queues qid
              = some ((q.dequeue.2).enqueue
                ⟨t0.task_id, t0.remaining - min t0.remaining quantum⟩).2 :=
            Scheduler.setQueue_queues_eq _ qid _
          unfold siteMeasure
          rw [hq1, hq]
          dsimp only [Scheduler.setQueue]
          rw [hmr, hmq]
          omega

theorem next_index_lt {s : SchedState} (hinv : Inv s) (hne : s.order ≠ []) :
    s.next_index < s.order.length := by
  have hlen : 0 < s.order.length := List.length_pos.mpr hne
  have h1 := hinv.hidx
  have h2 : max 1 s.order.length = s.order.length := Nat.max_eq_right hlen
  omega

namespace Scheduler

theorem advance_next_index {s : SchedState} (hne : s.order ≠ []) :
    (advance_index s).next_index = (s.next_index + 1) % s.order.length := by
  unfold advance_index
  rw [if_neg hne]

theorem advance_skip (s : SchedState) :
    (advance_index s).skip_pending = s.skip_pending := by
  unfold advance_index
  split <;> rfl

theorem advance_sizeAt (s : SchedState) (y : String) :
    sizeAt (advance_index s) y = sizeAt s y := by
  unfold advance_index
  split <;> rfl

theorem runQuiet_quiescent (quantum : Int) (fuel : Nat) {s : SchedState}
    (h : quiescent s = true) : runQuiet quantum (fuel + 1) s = some (s, []) := by
  unfold runQuiet
  rw [if_pos h]

/-- Unfold one non-quiescent loop iteration: if the loop on the advanced
post-turn state terminates within `fuel`, it terminates on `s` within
`fuel + 1`. -/
theorem runQuiet_step_some {quantum : Int} {fuel : Nat} {s : SchedState}
    (hqF : quiescent s = false)
    (h : (runQuiet quantum fuel (advance_index
        (perform_single_turn s (s.order.getD s.next_index "") quantum).1)).isSome = true) :
    (runQuiet quantum (fuel + 1) s).isSome = true := by
  obtain ⟨r, hr⟩ := Option.isSome_iff_exists.mp h
  unfold runQuiet
  rw [hqF]
  simp only [Bool.false_eq_true, if_false]
  rw [hr]
  rfl

end Scheduler

/-- An empty turn (no pending skip, no tasks, or a dangling id) leaves the
state exactly unchanged. -/
theorem turn_trivial_state {s : SchedState} {qid : String} (quantum : Int)
    (hskip : s.skip_pending qid = false) (hsz : Scheduler.sizeAt s qid = 0) :
    (Scheduler.perform_single_turn s qid quantum).1 = s := by
  cases hq : s.queues qid with
  | none =>
    rw [Scheduler.turn_no_queue_eq quantum hskip hq]
  | some q =>
    have hq0 : q.size = 0 := by
      unfold Scheduler.sizeAt at hsz
      rw [hq] at hsz
      exact hsz
    rw [Scheduler.turn_empty_eq quantum hskip hq hq0]

theorem mem_getD_of_mem {l : List String} {x : String} (h : x ∈ l) :
    ∃ j, j < l.length ∧ l.getD j "" = x := by
  obtain ⟨i, hi, he⟩ := List.getElem_of_mem h
  refine ⟨i, hi, ?_⟩
  rw [List.getD_eq_getElem?_getD, List.getElem?_eq_getElem hi]
  exact he

theorem exists_nontrivial_of_not_quiescent {s : SchedState}
    (h : Scheduler.quiescent s = false) :
    ∃ j, j < s.order.length ∧ (s.skip_pending (s.order.getD j "") = true
      ∨ Scheduler.sizeAt s (s.order.getD j "") ≠ 0) := by
  unfold Scheduler.quiescent at h
  rcases Bool.and_eq_false_iff.mp h with h | h
  · obtain ⟨qid, hmem, hp⟩ := List.all_eq_false.mp h
    obtain ⟨j, hj, he⟩ := mem_getD_of_mem hmem
    refine ⟨j, hj, Or.inr ?_⟩
    rw [he]
    simpa using hp
  · rw [Bool.not_eq_false'] at h
    obtain ⟨qid, hmem, hp⟩ := List.any_eq_true.mp h
    obtain ⟨j, hj, he⟩ := mem_getD_of_mem hmem
    refine ⟨j, hj, Or.inl ?_⟩
    rw [he]
    simpa using hp

/-- A turn against a nontrivial current queue, followed by the recursion on
the (measure-smaller) rest, terminates. -/
theorem runQuiet_nontrivial_current {quantum : Int} (hquant : 1 ≤ quantum)
    (s : SchedState) (hinv : Inv s) (hne : s.order ≠ [])
    (hIH : ∀ s', Inv s' → s'.order = s.order → engineMeasure s' < engineMeasure s →
        ∃ fuel, (Scheduler.runQuiet quantum fuel s').isSome = true)
    (hnt : s.skip_pending (s.order.getD s.next_index "") = true
        ∨ Scheduler.sizeAt s (s.order.getD s.next_index "") ≠ 0) :
    ∃ fuel, (Scheduler.runQuiet quantum fuel s).isSome = true := by
  have hidx := next_index_lt hinv hne
  have hmem : s.order.getD s.next_index "" ∈ s.order := getD_mem_of_lt hidx
  have hqF := Scheduler.quiescent_false_of_nontrivial hmem hnt
  have hlt := turn_measure_lt hinv hquant hmem hnt
  have hinv1 := Scheduler.inv_advance_index (Scheduler.inv_perform_single_turn hinv
      (s.order.getD s.next_index "") quantum)
  have horder1 : (Scheduler.advance_index (Scheduler.perform_single_turn s
      (s.order.getD s.next_index "") quantum).1).order = s.order := by
    rw [Scheduler.advance_order, Scheduler.turn_order]
  obtain ⟨fuel, hsome⟩ := hIH _ hinv1 horder1 (by rw [advance_measure]; exact hlt)
  exact ⟨fuel + 1, Scheduler.runQuiet_step_some hqF hsome⟩

/-- Inner induction for termination: if some position `d` steps ahead of the
cursor is nontrivial, the loop terminates (given termination below the
current measure). -/
theorem runQuiet_aux {quantum : Int} (hquant : 1 ≤ quantum) :
    ∀ (d : Nat) (s : SchedState), Inv s → s.order ≠ [] →
      (∀ s', Inv s' → s'.order = s.order → engineMeasure s' < engineMeasure s →
          ∃ fuel, (Scheduler.runQuiet quantum fuel s').isSome = true) →
      (s.skip_pending (s.order.getD ((s.next_index + d) % s.order.length) "") = true
        ∨ Scheduler.sizeAt s (s.order.getD ((s.next_index + d) % s.order.length) "") ≠ 0) →
      ∃ fuel, (Scheduler.runQuiet quantum fuel s).isSome = true := by
  intro d
  induction d with
  | zero =>
    intro s hinv hne hIH hnt
    have hidx := next_index_lt hinv hne
    rw [Nat.add_zero, Nat.mod_eq_of_lt hidx] at hnt
    exact runQuiet_nontrivial_current hquant s hinv hne hIH hnt
  | succ d ih =>
    intro s hinv hne hIH hnt
    have hlen : 0 < s.order.length := List.length_pos.mpr hne
    by_cases hcur : s.skip_pending (s.order.getD s.next_index "") = true
        ∨ Scheduler.sizeAt s (s.order.getD s.next_index "") ≠ 0
    · exact runQuiet_nontrivial_current hquant s hinv hne hIH hcur
    · rw [not_or] at hcur
      obtain ⟨hcs, hcz⟩ := hcur
      have hcsF : s.skip_pending (s.order.getD s.next_index "") = false := by
        cases hb : s.skip_pending (s.order.getD s.next_index "")
        · rfl
        · exact absurd hb hcs
      have hczZ : Scheduler.sizeAt s (s.order.getD s.next_index "") = 0 :=
        not_not.mp hcz
      have hstate : (Scheduler.perform_single_turn s (s.order.getD s.next_index "")
          quantum).1 = s := turn_trivial_state quantum hcsF hczZ
      have hpos : ((s.next_index + 1) % s.order.length + d) % s.order.length
          = (s.next_index + (d + 1)) % s.order.length := by
        rw [Nat.mod_add_mod]
        congr 1
        omega
      have hnt2 : (Scheduler.advance_index s).skip_pending
            ((Scheduler.advance_index s).order.getD
              (((Scheduler.advance_index s).next_index + d)
                % (Scheduler.advance_index s).order.length) "") = true
          ∨ Scheduler.sizeAt (Scheduler.advance_index s)
            ((Scheduler.advance_index s).order.getD
              (((Scheduler.advance_index s).next_index + d)
                % (Scheduler.advance_index s).order.length) "") ≠ 0 := by
        rcases hnt with h | h
        · left
          rw [Scheduler.advance_skip, Scheduler.advance_order,
            Scheduler.advance_next_index hne, hpos]
          exact h
        · right
          rw [Scheduler.advance_sizeAt, Scheduler.advance_order,
            Scheduler.advance_next_index hne, hpos]
          exact h
      have hIH2 : ∀ s', Inv s' → s'.order = (Scheduler.advance_index s).order →
          engineMeasure s' < engineMeasure (Scheduler.advance_index s) →
          ∃ fuel, (Scheduler.runQuiet quantum fuel s').isSome = true := by
        intro s' h1 h2 h3
        rw [advance_measure] at h3
        exact hIH s' h1 (h2.trans (Scheduler.advance_order s)) h3
      obtain ⟨fuel, hsome⟩ := ih (Scheduler.advance_index s)
        (Scheduler.inv_advance_index hinv)
        (by rw [Scheduler.advance_order]; exact hne) hIH2 hnt2
      by_cases hqq : Scheduler.quiescent s = true
      · exact ⟨0 + 1, by rw [Scheduler.runQuiet_quiescent quantum 0 hqq]; rfl⟩
      · have hqF : Scheduler.quiescent s = false := by
          cases hb : Scheduler.quiescent s
          · rfl
          · exact absurd hb hqq
        refine ⟨fuel + 1, Scheduler.runQuiet_step_some hqF ?_⟩
        rw [hstate]
        exact hsome

/-- Outer induction for termination: the engine measure bounds the number of
productive turns. -/
theorem runQuiet_total {quantum : Int} (hquant : 1 ≤ quantum) :
    ∀ (M : Nat) (s : SchedState), engineMeasure s ≤ M → Inv s → s.order ≠ [] →
      ∃ fuel, (Scheduler.runQuiet quantum fuel s).isSome = true := by
  intro M
  induction M with
  | zero =>
    intro s hm hinv hne
    by_cases hqq : Scheduler.quiescent s = true
    · exact ⟨0 + 1, by rw [Scheduler.runQuiet_quiescent quantum 0 hqq]; rfl⟩
    · have hqF : Scheduler.quiescent s = false := by
        cases hb : Scheduler.quiescent s
        · rfl
        · exact absurd hb hqq
      obtain ⟨j, hj, hntj⟩ := exists_nontrivial_of_not_quiescent hqF
      have hidx := next_index_lt hinv hne
      have hd := cycle_hit hidx hj
      apply runQuiet_aux hquant ((j + s.order.length - s.next_index) % s.order.length)
        s hinv hne
      · intro s' _ _ hlt
        exact absurd hlt (by omega)
      · rw [hd]
        exact hntj
  | succ M ihM =>
    intro s hm hinv hne
    by_cases hqq : Scheduler.quiescent s = true
    · exact ⟨0 + 1, by rw [Scheduler.runQuiet_quiescent quantum 0 hqq]; rfl⟩
    · have hqF : Scheduler.quiescent s = false := by
        cases hb : Scheduler.quiescent s
        · rfl
        · exact absurd hb hqq
      obtain ⟨j, hj, hntj⟩ := exists_nontrivial_of_not_quiescent hqF
      have hidx := next_index_lt hinv hne
      have hd := cycle_hit hidx hj
      apply runQuiet_aux hquant ((j + s.order.length - s.next_index) % s.order.length)
        s hinv hne
      · intro s' hinv' horder hlt
        exact ihM s' (by omega) hinv' (by rw [horder]; exact hne)
      · rw [hd]
        exact hntj

/-- With `quantum ≤ 0` a turn never changes any queue's size: the front task
is worked a non-positive amount and always re-enqueued. -/
theorem turn_sizeAt_preserved {s : SchedState} {qid : String} {quantum : Int}
    (hinv : Inv s) (hquant : quantum ≤ 0) (y : String) :
    Scheduler.sizeAt (Scheduler.perform_single_turn s qid quantum).1 y
      = Scheduler.sizeAt s y := by
  by_cases hskip : s.skip_pending qid = true
  · rw [Scheduler.turn_skip_eq quantum hskip]
    rfl
  · have hskipF : s.skip_pending qid = false := by
      cases hb : s.skip_pending qid
      · rfl
      · exact absurd hb hskip
    cases hq : s.queues qid with
    | none =>
      rw [Scheduler.turn_no_queue_eq quantum hskipF hq]
    | some q =>
      by_cases hsz : q.size = 0
      · rw [Scheduler.turn_empty_eq quantum hskipF hq hsz]
      · have hwfq := hinv.hwf qid q hq
        obtain ⟨t0, ht0, hrem0, hcont, hsz', hcap', _, _, hwf'⟩ :=
          QueueRR.dequeue_spec hwfq (Nat.pos_of_ne_zero hsz)
        rw [Scheduler.turn_work_eq quantum hskipF hq hsz ht0]
        have hminle : min t0.remaining quantum ≤ 0 := le_trans (min_le_right _ _) hquant
        rw [if_neg (by omega : ¬ t0.remaining - min t0.remaining quantum ≤ 0)]
        by_cases hy : y = qid
        · subst hy
          have hlt2 : q.dequeue.2.size < q.dequeue.2.capacity := by
            rw [hsz', hcap']
            have := hwfq.hsize
            omega
          obtain ⟨e1, e2, e3, _⟩ := QueueRR.enqueue_spec hwf'
            ⟨t0.task_id, t0.remaining - min t0.remaining quantum⟩ hlt2
          unfold Scheduler.sizeAt
          rw [Scheduler.setQueue_queues_eq, hq]
          dsimp only
          rw [e3, hsz']
          omega
        · unfold Scheduler.sizeAt
          rw [Scheduler.setQueue_queues_ne _ hy]
          have hmid : ({ Scheduler.setQueue s qid q.dequeue.2 with
              time := s.time + min t0.remaining quantum } : SchedState).queues y
              = s.queues y := Scheduler.setQueue_queues_ne s hy _
          rw [hmid]

theorem quiescent_false_of_nonempty {s : SchedState}
    (h : ∃ qid ∈ s.order, Scheduler.sizeAt s qid ≠ 0) :
    Scheduler.quiescent s = false := by
  obtain ⟨qid, hmem, hsz⟩ := h
  exact Scheduler.quiescent_false_of_nontrivial hmem (Or.inr hsz)

/-- With `quantum ≤ 0` and some listed queue non-empty, the quiescence loop
never breaks: every fuel runs out. -/
theorem runQuiet_diverges {quantum : Int} (hquant : quantum ≤ 0) :
    ∀ (fuel : Nat) (s : SchedState), Inv s →
      (∃ qid ∈ s.order, Scheduler.sizeAt s qid ≠ 0) →
      Scheduler.runQuiet quantum fuel s = none := by
  intro fuel
  induction fuel with
  | zero =>
    intro s _ _
    rfl
  | succ fuel ih =>
    intro s hinv hP
    have hqF := quiescent_false_of_nonempty hP
    unfold Scheduler.runQuiet
    rw [hqF]
    simp only [Bool.false_eq_true, if_false]
    have hP2 : ∃ qid ∈ (Scheduler.advance_index (Scheduler.perform_single_turn s
          (s.order.getD s.next_index "") quantum).1).order,
        Scheduler.sizeAt (Scheduler.advance_index (Scheduler.perform_single_turn s
          (s.order.getD s.next_index "") quantum).1) qid ≠ 0 := by
      obtain ⟨qid, hmem, hsz⟩ := hP
      refine ⟨qid, ?_, ?_⟩
      · rw [Scheduler.advance_order, Scheduler.turn_order]
        exact hmem
      · rw [Scheduler.advance_sizeAt, turn_sizeAt_preserved hinv hquant]
        exact hsz
    have hinv2 := Scheduler.inv_advance_index (Scheduler.inv_perform_single_turn hinv
      (s.order.getD s.next_index "") quantum)
    rw [ih _ hinv2 hP2]

/-- C10: on every reachable state, a `run` call without `steps` and with
quantum ≥ 1 terminates (some fuel makes the embedded loop reach quiescence);
with quantum ≤ 0 and any listed queue non-empty, the same call loops forever
(no fuel suffices). -/
theorem run_to_quiescence_termination :
    (∀ s : SchedState, Reachable s → ∀ quantum : Int, 1 ≤ quantum →
        ∃ fuel, (Scheduler.run s quantum none fuel).isSome = true)
    ∧ (∀ s : SchedState, Reachable s → ∀ quantum : Int, quantum ≤ 0 →
        (∃ qid ∈ s.order, Scheduler.sizeAt s qid ≠ 0) →
        ∀ fuel, Scheduler.run s quantum none fuel = none) := by
  constructor
  · intro s hs quantum hquant
    have hrun : ∀ fuel, Scheduler.run s quantum none fuel
        = if s.order = [] then some (s, []) else Scheduler.runQuiet quantum fuel s :=
      fun fuel => rfl
    by_cases hne : s.order = []
    · refine ⟨0, ?_⟩
      rw [hrun 0, if_pos hne]
      rfl
    · obtain ⟨fuel, hsome⟩ := runQuiet_total hquant (engineMeasure s) s le_rfl
        (reachable_inv hs) hne
      refine ⟨fuel, ?_⟩
      rw [hrun fuel, if_neg hne]
      exact hsome
  · intro s hs quantum hquant hP fuel
    have hne : s.order ≠ [] := by
      obtain ⟨qid, hmem, _⟩ := hP
      exact List.ne_nil_of_mem hmem
    have hrun : Scheduler.run s quantum none fuel
        = if s.order = [] then some (s, []) else Scheduler.runQuiet quantum fuel s := rfl
    rw [hrun, if_neg hne]
    exact runQuiet_diverges hquant fuel s (reachable_inv hs) hP

/-- Witness for C10: the loaded one-queue engine terminates with quantum 1,
and loops forever with quantum 0. -/
theorem run_to_quiescence_termination_witness :
    Reachable sampleLoaded
    ∧ (∃ fuel, (Scheduler.run sampleLoaded 1 none fuel).isSome = true)
    ∧ Scheduler.run sampleLoaded 0 none 5 = none :=
  ⟨reachable_sampleLoaded,
    run_to_quiescence_termination.1 sampleLoaded reachable_sampleLoaded 1 (le_refl 1),
    run_to_quiescence_termination.2 sampleLoaded reachable_sampleLoaded 0 (le_refl 0)
      ⟨"a", by decide, by decide⟩ 5⟩

end Sched
